import Mathlib

/-!
Verification of the RAID storage engine core (`raid-rs`): stripe layouts
(RAID0 / RAID1 / RAID3), the disk array read/write paths with transparent
reconstruction and scrub write-back, and the byte-level volume mapper.

The Rust source is shallowly embedded: a `Bits<N>` cell becomes a
`List Nat` of length `N` (bytes), a memory-mapped disk becomes a record
holding its byte content as a function together with its length and state
flags, and the stripe trait objects become a record of operations
(`StripeOps`).  Machine integers are modelled as `Nat` (the code performs
no wrapping arithmetic on the modelled paths: offsets use checked
arithmetic that aborts on overflow, and bytes are only copied or XORed).
-/

namespace RaidSim

/-- A cell is the content of one `Bits<N>` buffer: `N` bytes. -/
abbrev Cell := List Nat

/-- Bytewise XOR of two cells (`Bits::xor_in_place`); in the source both
buffers always have the same width `N`. -/
def xorCells (a b : Cell) : Cell := List.zipWith Nat.xor a b

/-- XOR of a list of cells starting from the all-zero cell of width `N`
(the accumulation pattern of `RAID3::scrub` / `write_parity`). -/
def xorAll (cs : List Cell) (N : Nat) : Cell :=
  cs.foldl xorCells (List.replicate N 0)

/-- XOR-fold of a list of bytes. -/
def bxor (l : List Nat) : Nat := l.foldl Nat.xor 0

/-- One disk image (`Disk`): byte content (meaningful below `len`),
the operational state (`missing` models a dropped mapping / unlinked
image) and the `needs_rebuild` ("untrusted") flag. -/
structure DiskM where
  len : Nat
  data : Nat → Nat
  missing : Bool
  needsRebuild : Bool

instance : Inhabited DiskM := ⟨⟨0, fun _ => 0, true, false⟩⟩

/-- Disk lookup in an array; out-of-range yields the default (never hit on
the modelled paths, which range-check indices first). -/
def getDisk (disks : List DiskM) (i : Nat) : DiskM := disks.getD i default

/-- `Disk::read_at` into a zero-initialised buffer of `n` bytes: copies
`min(n, len - off)` bytes when the mapping exists and `off < len`,
otherwise copies nothing (the buffer stays zero). -/
def diskReadAt (d : DiskM) (off n : Nat) : List Nat :=
  (List.range n).map fun b =>
    if d.missing = false ∧ off + b < d.len then d.data (off + b) else 0

/-- Number of bytes `Disk::read_at` reports as copied. -/
def diskReadCount (d : DiskM) (off n : Nat) : Nat :=
  if d.missing = true ∨ d.len ≤ off then 0 else min n (d.len - off)

/-- Number of bytes `Disk::write_at` copies (short-copy semantics). -/
def diskWriteCount (d : DiskM) (off n : Nat) : Nat :=
  if d.missing = true ∨ d.len ≤ off then 0 else min n (d.len - off)

/-- `Disk::write_at`: copies `min(len(data), len - off)` bytes at `off`
when the mapping exists and `off < len`; flags are untouched. -/
def diskWriteAt (d : DiskM) (off : Nat) (bytes : List Nat) : DiskM :=
  let k := diskWriteCount d off bytes.length
  { d with data := fun p => if off ≤ p ∧ p < off + k then bytes.getD (p - off) 0 else d.data p }

/-- Restore/scrub capability of a stripe (`trait Restore`); `scrub`
returns the repaired stripe and the indices to rewrite. -/
structure RestoreOps where
  restore : List Cell → Nat → List Cell
  scrub : List Cell → List Cell × List Nat

/-- The stripe capability set (`trait Stripe`): the `DATA`/`DISKS`
constants, the logical and raw views, and the optional restore capability.
`hasRestore` is `as_restore().is_some()` and `restoreMut` is
`as_restore_mut()`; RAID1 answers `true` for the former but `none` for the
latter (its `Stripe` impl does not override `as_restore_mut`). -/
structure StripeOps where
  dataN : Nat
  disksN : Nat
  write : List Cell → List Cell → List Cell
  read : List Cell → List Cell
  writeRaw : List Cell → List Cell → List Cell
  readRaw : List Cell → List Cell
  hasRestore : Bool
  restoreMut : Option RestoreOps

/-- The closed set of stripe layouts of the engine. -/
inductive Layout | raid0 | raid1 | raid3
deriving DecidableEq

/-- The `DATA` constant of each layout. -/
def dataCount (L : Layout) (D : Nat) : Nat :=
  match L with
  | .raid0 => D
  | .raid1 => 1
  | .raid3 => D - 1

/-- RAID3 `write_parity`.  Modelled from the spec: the function lives in
the layout's `mod.rs`, which is absent from the sources (only its callers
in `stripe_impl.rs`/`restore_impl.rs` are present); per the spec, cell
`D-1` is set to the XOR of data cells `0..D-2`. -/
def raid3WriteParity (D N : Nat) (st : List Cell) : List Cell :=
  st.take (D - 1) ++ [xorAll (st.take (D - 1)) N]

/-- RAID3 `reconstruct_data`.  Modelled from the spec: the function lives
in the layout's `mod.rs`, absent from the sources; per the spec, cell `i`
is rebuilt as the XOR of all other cells. -/
def raid3ReconstructData (N : Nat) (st : List Cell) (i : Nat) : List Cell :=
  st.set i (xorAll (st.eraseIdx i) N)

/-- `RAID3::scrub`: recompute parity from the data cells; on mismatch
overwrite the parity cell and report `[D-1]`, otherwise report nothing. -/
def raid3Scrub (D N : Nat) (st : List Cell) : List Cell × List Nat :=
  let p := xorAll (st.take (D - 1)) N
  if st.getD (D - 1) [] = p then (st, []) else (st.set (D - 1) p, [D - 1])

/-- `RAID3::restore`: recompute parity for the parity index, otherwise
reconstruct the data cell from the other cells. -/
def raid3Restore (D N : Nat) (st : List Cell) (i : Nat) : List Cell :=
  if i = D - 1 then raid3WriteParity D N st else raid3ReconstructData N st i

/-- `RAID1::restore`: copy the first cell with index `≠ i` over cell `i`
(the source scans `j = 0, 1, …` and takes the first hit). -/
def raid1Restore (st : List Cell) (i : Nat) : List Cell :=
  st.set i (st.getD (if i = 0 then 1 else 0) [])

/-- The multiplicity of value `v` among the cells of a RAID1 stripe
(what the source's `HashMap` of counts records for key `v`). -/
def cellCount (st : List Cell) (v : Cell) : Nat := st.count v

/-- The winner of `RAID1::scrub`'s frequency contest when the source's
`HashMap` yields its keys in the order `order`: starting from
`(st[0], 0)`, each key with a strictly larger count replaces the best. -/
def raid1ScrubBest (st : List Cell) (order : List Cell) : Cell :=
  (order.foldl
    (fun bc v => if bc.2 < cellCount st v then (v, cellCount st v) else bc)
    (st.getD 0 [], 0)).1

/-- `RAID1::scrub` under HashMap iteration order `order`: overwrite every
cell that differs from the winning value and return their indices. -/
def raid1ScrubWithOrder (st : List Cell) (order : List Cell) : List Cell × List Nat :=
  let best := raid1ScrubBest st order
  (st.map fun c => if c = best then c else best,
   (List.range st.length).filter fun i => st.getD i [] ≠ best)

/-- A legal iteration order of the count map: each distinct cell value of
the stripe appears exactly once, in an unspecified order. -/
def ValidOrder (st : List Cell) (order : List Cell) : Prop :=
  order.Perm st.dedup

/-- The stripe operations of each layout, as exposed through the
`Stripe<D, N>` trait (RAID1's `Stripe` impl comes from the
`crates/raid-rs` tree, the only one present in the sources: it overrides
`as_restore` but not `as_restore_mut`). -/
def layoutOps (L : Layout) (D N : Nat) : StripeOps :=
  match L with
  | .raid0 =>
      { dataN := D, disksN := D
        write := fun _ data => data.take D
        read := fun st => st.take D
        writeRaw := fun _ data => data.take D
        readRaw := fun st => st.take D
        hasRestore := false
        restoreMut := none }
  | .raid1 =>
      { dataN := 1, disksN := D
        write := fun _ data => List.replicate D (data.getD 0 (List.replicate N 0))
        read := fun st => [st.getD 0 (List.replicate N 0)]
        writeRaw := fun _ data => data.take D
        readRaw := fun st => st.take D
        hasRestore := true
        restoreMut := none }
  | .raid3 =>
      { dataN := D - 1, disksN := D
        write := fun st data => raid3WriteParity D N (data.take (D - 1) ++ st.drop (D - 1))
        read := fun st => st.take (D - 1)
        writeRaw := fun _ data => data.take D
        readRaw := fun st => st.take D
        hasRestore := true
        restoreMut := some ⟨raid3Restore D N, raid3Scrub D N⟩ }

/-! ## The disk array (`Array<D, N>`) -/

/-- `Array::write`: for each non-missing disk copy its raw cell at `off`;
a disk whose full `N`-byte chunk was written gets `needs_rebuild`
cleared.  Missing disks are silently skipped. -/
def arrayWrite (disks : List DiskM) (off : Nat) (cells : List Cell) : List DiskM :=
  (disks.zip cells).map fun dc =>
    if dc.1.missing then dc.1
    else
      let d := diskWriteAt dc.1 off dc.2
      if diskWriteCount dc.1 off dc.2.length = dc.2.length
      then { d with needsRebuild := false } else d

/-- The indices `Array::read` classifies as degraded: missing disks, and
untrusted disks when the layout offers restore. -/
def degradedOf (hasR : Bool) (disks : List DiskM) : List Nat :=
  (List.range disks.length).filter fun i =>
    (getDisk disks i).missing || (hasR && (getDisk disks i).needsRebuild)

/-- The temporary per-disk buffers of `Array::read`: degraded disks keep
their zeroed buffer, the others are filled by `read_at`. -/
def bufOf (hasR : Bool) (N : Nat) (disks : List DiskM) (off : Nat) : List Cell :=
  disks.map fun d =>
    if d.missing || (hasR && d.needsRebuild) then List.replicate N 0
    else diskReadAt d off N

/-- Insertion into a sorted list (ascending). -/
def insSorted (x : Nat) : List Nat → List Nat
  | [] => [x]
  | y :: ys => if x ≤ y then x :: y :: ys else y :: insSorted x ys

/-- `sort_unstable` followed by `dedup` on the repaired-indices list. -/
def sortDedup (l : List Nat) : List Nat := (l.foldr insSorted []).dedup

/-- The stripe state after `write_raw` of the temporary buffers. -/
def arrayReadS1 (ops : StripeOps) (N : Nat) (disks : List DiskM) (off : Nat)
    (st : List Cell) : List Cell :=
  ops.writeRaw st (bufOf ops.hasRestore N disks off)

/-- The restore phase of `Array::read`: mirror-like layouts restore every
degraded index, the others restore only a unique degraded index.  Returns
the stripe together with the list of restored indices. -/
def arrayReadRestored (ops : StripeOps) (r : RestoreOps) (disks : List DiskM)
    (s1 : List Cell) : List Cell × List Nat :=
  let degraded := degradedOf ops.hasRestore disks
  if ops.dataN = 1 ∧ ops.disksN = disks.length then
    (degraded.foldl (fun st i => r.restore st i) s1, degraded)
  else if degraded.length = 1 then
    (r.restore s1 (degraded.getD 0 0), degraded)
  else (s1, [])

/-- Write-back phase of `Array::read`: rewrite the raw cell of every
repaired, in-range, non-missing disk at `off`. -/
def writeBack (disks : List DiskM) (off : Nat) (raw : List Cell)
    (repaired : List Nat) : List DiskM :=
  repaired.foldl
    (fun ds i =>
      if ds.length ≤ i then ds
      else if (getDisk ds i).missing then ds
      else ds.set i (diskWriteAt (getDisk ds i) off (raw.getD i [])))
    disks

/-- The sorted, deduplicated repaired-index list of one `Array::read`. -/
def arrayReadRepaired (ops : StripeOps) (N : Nat) (disks : List DiskM) (off : Nat)
    (st : List Cell) : List Nat :=
  match ops.restoreMut with
  | none => []
  | some r =>
      let s1 := arrayReadS1 ops N disks off st
      let rs := arrayReadRestored ops r disks s1
      sortDedup (rs.2 ++ (r.scrub rs.1).2)

/-- The final stripe state produced by one `Array::read`. -/
def arrayReadStripe (ops : StripeOps) (N : Nat) (disks : List DiskM) (off : Nat)
    (st : List Cell) : List Cell :=
  match ops.restoreMut with
  | none => arrayReadS1 ops N disks off st
  | some r => (r.scrub (arrayReadRestored ops r disks (arrayReadS1 ops N disks off st)).1).1

/-- `Array::read`: fill the stripe from the non-degraded disks, restore
and scrub, then write repaired cells back to their operational disks. -/
def arrayRead (ops : StripeOps) (N : Nat) (disks : List DiskM) (off : Nat)
    (st : List Cell) : List DiskM × List Cell :=
  let s3 := arrayReadStripe ops N disks off st
  match ops.restoreMut with
  | none => (disks, s3)
  | some _ =>
      (writeBack disks off (ops.readRaw s3) (arrayReadRepaired ops N disks off st), s3)

/-! ## The volume (`Volume<D, N, T>`) -/

/-- The in-memory state of a `Volume`: its disk array and the stripe
scratch buffer. -/
structure VolumeM where
  disks : List DiskM
  st : List Cell

/-- `Array::disk_len`: length of the first disk (0 for an empty array). -/
def diskLen (disks : List DiskM) : Nat := (disks.headD default).len

/-- `Volume::logical_capacity_bytes` = `disk_len * DATA`. -/
def logicalCapacityBytes (ops : StripeOps) (v : VolumeM) : Nat :=
  diskLen v.disks * ops.dataN

/-- `Volume::stripes_needed_for_logical_end`. -/
def stripesNeeded (ops : StripeOps) (N : Nat) (v : VolumeM) (logicalEnd : Nat) : Nat :=
  let bps := ops.dataN * N
  if bps = 0 then 0
  else
    let e := min logicalEnd (logicalCapacityBytes ops v)
    if e = 0 then 0
    else if e % bps = 0 then e / bps else e / bps + 1

/-- `Volume::load_stripe`: an `Array::read` at the stripe's byte offset. -/
def loadStripe (ops : StripeOps) (N : Nat) (v : VolumeM) (s : Nat) : VolumeM :=
  let r := arrayRead ops N v.disks (s * N) v.st
  ⟨r.1, r.2⟩

/-- `Volume::store_stripe`: an `Array::write` of the raw stripe view. -/
def storeStripe (ops : StripeOps) (N : Nat) (v : VolumeM) (s : Nat) : VolumeM :=
  ⟨arrayWrite v.disks (s * N) (ops.readRaw v.st), v.st⟩

/-- One byte store into the `DATA` chunk view
(`data_chunks[pos / N].as_bytes_mut()[pos % N] = b`). -/
def setChunkByte (N : Nat) (chunks : List Cell) (pos b : Nat) : List Cell :=
  chunks.set (pos / N) ((chunks.getD (pos / N) []).set (pos % N) b)

/-- One byte load from the `DATA` chunk view. -/
def getChunkByte (N : Nat) (chunks : List Cell) (pos : Nat) : Nat :=
  (chunks.getD (pos / N) []).getD (pos % N) 0

/-- The per-stripe payload splice of `Volume::write_bytes`: bytes
`payload[written + i]` for `i < take` land at in-stripe positions
`inStripe + i` of the chunk view. -/
def updSeg (N : Nat) (chunks : List Cell) (inStripe take : Nat)
    (payload : List Nat) (written : Nat) : List Cell :=
  (List.range take).foldl
    (fun ch i => setChunkByte N ch (inStripe + i) (payload.getD (written + i) 0))
    chunks

/-- The loop of `Volume::write_bytes`, with explicit fuel (each iteration
advances by `take ≥ 1` whenever `DATA * N > 0`, so `payload.length` fuel
suffices). -/
def writeLoop (ops : StripeOps) (N : Nat) (payload : List Nat) (byteOff : Nat) :
    Nat → VolumeM → Nat → VolumeM
  | 0, v, _ => v
  | fuel + 1, v, written =>
    if written < payload.length then
      let bps := ops.dataN * N
      let absolute := byteOff + written
      let stripeIndex := absolute / bps
      let inStripe := absolute % bps
      let take := min (bps - inStripe) (payload.length - written)
      let v1 := loadStripe ops N v stripeIndex
      let chunks := ops.read v1.st
      let st2 := ops.write v1.st (updSeg N chunks inStripe take payload written)
      let v2 := storeStripe ops N ⟨v1.disks, st2⟩ stripeIndex
      writeLoop ops N payload byteOff fuel v2 (written + take)
    else v

/-- `Volume::write_bytes`. -/
def writeBytes (ops : StripeOps) (N : Nat) (v : VolumeM) (byteOff : Nat)
    (payload : List Nat) : VolumeM :=
  writeLoop ops N payload byteOff payload.length v 0

/-- The loop of `Volume::read_bytes`; returns the output buffer and the
volume (reads can mutate disks through read-repair). -/
def readLoop (ops : StripeOps) (N : Nat) (byteOff : Nat) :
    Nat → VolumeM → List Nat → Nat → List Nat × VolumeM
  | 0, v, out, _ => (out, v)
  | fuel + 1, v, out, readC =>
    if readC < out.length then
      let bps := ops.dataN * N
      let absolute := byteOff + readC
      let stripeIndex := absolute / bps
      let inStripe := absolute % bps
      let take := min (bps - inStripe) (out.length - readC)
      let v1 := loadStripe ops N v stripeIndex
      let chunks := ops.read v1.st
      let out2 := (List.range take).foldl
        (fun o i => o.set (readC + i) (getChunkByte N chunks (inStripe + i))) out
      readLoop ops N byteOff fuel v1 out2 (readC + take)
    else (out, v)

/-- `Volume::read_bytes`. -/
def readBytes (ops : StripeOps) (N : Nat) (v : VolumeM) (byteOff : Nat)
    (out : List Nat) : List Nat × VolumeM :=
  readLoop ops N byteOff out.length v out 0

/-- `Volume::fail_disk` (via `Array` and `Disk::fail`): the mapping is
dropped, so the disk turns missing; its image content is no longer
reachable through reads.  The index is range-checked by the caller. -/
def failDisk (v : VolumeM) (i : Nat) : VolumeM :=
  ⟨v.disks.set i { getDisk v.disks i with missing := true }, v.st⟩

/-- `Volume::clear_needs_rebuild_disk`. -/
def clearNeedsRebuildDisk (v : VolumeM) (i : Nat) : VolumeM :=
  if i < v.disks.length ∧ (getDisk v.disks i).missing = false then
    ⟨v.disks.set i { getDisk v.disks i with needsRebuild := false }, v.st⟩
  else v

/-- `Volume::rebuild_disk_upto`: guards (index range, restore capability,
missing, untrusted) followed by a repair sweep and a flag clear.  The
first component is the `Result`, the second the volume state after the
call (errors bail out before any mutation). -/
def rebuildDiskUpto (ops : StripeOps) (N : Nat) (v : VolumeM) (i : Nat)
    (logicalEnd : Nat) : Except String Unit × VolumeM :=
  if v.disks.length ≤ i then (.error "disk index out of range", v)
  else if ops.hasRestore = false then (.ok (), v)
  else if (getDisk v.disks i).missing then (.error "disk is missing/failed; replace it first", v)
  else if (getDisk v.disks i).needsRebuild = false then (.ok (), v)
  else
    let n := stripesNeeded ops N v logicalEnd
    let v1 := (List.range n).foldl (fun w s => loadStripe ops N w s) v
    (.ok (), clearNeedsRebuildDisk v1 i)

/-! ## Logical views used by the theorems -/

/-- Which disk holds data chunk `c` of a stripe: chunk `c` sits on disk
`c` for RAID0/RAID3, and the logical view of RAID1 is read from disk 0. -/
def dataDiskIdx (L : Layout) (c : Nat) : Nat :=
  match L with
  | .raid1 => 0
  | _ => c

/-- The logical byte at offset `a` of a volume's disks: locate the
stripe, chunk and in-chunk byte, and read the backing disk's image
(zero beyond the image length). -/
def lbyte (L : Layout) (D N : Nat) (disks : List DiskM) (a : Nat) : Nat :=
  let bps := dataCount L D * N
  let s := a / bps
  let c := (a % bps) / N
  let b := (a % bps) % N
  let d := getDisk disks (dataDiskIdx L c)
  if s * N + b < d.len then d.data (s * N + b) else 0

/-- All disks present, trusted, and of length `dl`. -/
def healthyDisks (disks : List DiskM) (dl : Nat) : Prop :=
  ∀ d ∈ disks, d.missing = false ∧ d.needsRebuild = false ∧ d.len = dl

/-- Layout well-formedness: at least one data disk. -/
def layoutWF (L : Layout) (D : Nat) : Prop :=
  match L with
  | .raid3 => 2 ≤ D
  | _ => 1 ≤ D

/-- RAID3 parity consistency of stripe `s` on the disks: at every
in-image byte of the stripe, the parity disk holds the XOR of the data
disks. -/
def pcOk (D N : Nat) (disks : List DiskM) (dl s : Nat) : Prop :=
  ∀ b, b < N → s * N + b < dl →
    (getDisk disks (D - 1)).data (s * N + b) =
      bxor ((List.range (D - 1)).map fun j => (getDisk disks j).data (s * N + b))

/-- Stripe `s` intersects the logical byte range `[off, off + len)`. -/
def sTouches (bps off len s : Nat) : Prop :=
  s * bps < off + len ∧ off < (s + 1) * bps

/-- The disk-image byte offset backing logical byte `a`
(`stripe * N + in-chunk byte`). -/
def diskOffOf (bps N a : Nat) : Nat := (a / bps) * N + (a % bps) % N

/-- The chunk view of stripe `s` as determined by the disks' images:
chunk `c` is the `N`-byte row of logical bytes `s·bps + c·N + b`. -/
def dchunks (L : Layout) (D N : Nat) (disks : List DiskM) (s : Nat) : List Cell :=
  (List.range (dataCount L D)).map fun c =>
    (List.range N).map fun b =>
      lbyte L D N disks (s * (dataCount L D * N) + (c * N + b))

/-! ## List access helpers -/

theorem getD_eq_getElem_of_lt {α : Type} (l : List α) (d : α) {i : Nat}
    (h : i < l.length) : l.getD i d = l[i] :=
  List.getD_eq_getElem l d h

theorem getD_eq_default_of_le {α : Type} (l : List α) (d : α) {i : Nat}
    (h : l.length ≤ i) : l.getD i d = d := by
  simp [List.getD_eq_getElem?_getD, List.getElem?_eq_none h]

theorem getD_set {α : Type} (l : List α) (i j : Nat) (x d : α) :
    (l.set i x).getD j d = if i = j ∧ j < l.length then x else l.getD j d := by
  by_cases hij : i = j
  · subst hij
    by_cases hi : i < l.length
    · simp [List.getD_eq_getElem?_getD, List.getElem?_set_self hi, hi]
    · rw [List.set_eq_of_length_le (Nat.le_of_not_lt hi)]
      simp [hi]
  · simp [List.getD_eq_getElem?_getD, List.getElem?_set_ne hij, hij]

theorem getD_map_zero (f : DiskM → Cell) (l : List DiskM) (i : Nat) (hi : i < l.length) :
    (l.map f).getD i [] = f (getDisk l i) := by
  rw [getD_eq_getElem_of_lt _ _ (by simpa using hi), List.getElem_map,
    getDisk, getD_eq_getElem_of_lt _ _ hi]

theorem getDisk_set (ds : List DiskM) (i j : Nat) (x : DiskM) :
    getDisk (ds.set i x) j = if i = j ∧ j < ds.length then x else getDisk ds j :=
  getD_set ds i j x default

theorem length_insSorted (x : Nat) (l : List Nat) :
    (insSorted x l).length = l.length + 1 := by
  induction l with
  | nil => rfl
  | cons y ys ih =>
    by_cases h : x ≤ y <;> simp [insSorted, h, ih]

theorem mem_insSorted (x a : Nat) (l : List Nat) :
    a ∈ insSorted x l ↔ a = x ∨ a ∈ l := by
  induction l with
  | nil => simp [insSorted]
  | cons y ys ih =>
    by_cases h : x ≤ y
    · simp [insSorted, h]
    · simp [insSorted, h, ih]; tauto

theorem mem_sortDedup (a : Nat) (l : List Nat) : a ∈ sortDedup l ↔ a ∈ l := by
  rw [sortDedup, List.mem_dedup]
  induction l with
  | nil => simp
  | cons y ys ih => simp [mem_insSorted, ih]

/-! ## XOR helpers -/

theorem length_xorCells (a b : Cell) : (xorCells a b).length = min a.length b.length := by
  simp [xorCells]

theorem getD_xorCells (a b : Cell) (i : Nat) (ha : i < a.length) (hb : i < b.length) :
    (xorCells a b).getD i 0 = Nat.xor (a.getD i 0) (b.getD i 0) := by
  rw [getD_eq_getElem_of_lt _ _ (by simp [length_xorCells]; omega),
    getD_eq_getElem_of_lt _ _ ha, getD_eq_getElem_of_lt _ _ hb]
  simp [xorCells]

theorem foldl_xorCells_length (cs : List Cell) (acc : Cell) (N : Nat)
    (hacc : acc.length = N) (hcs : ∀ c ∈ cs, c.length = N) :
    (cs.foldl xorCells acc).length = N := by
  induction cs generalizing acc with
  | nil => simpa
  | cons c cs ih =>
    exact ih (xorCells acc c)
      (by simp [length_xorCells, hacc, hcs c (by simp)])
      (fun c' hc' => hcs c' (by simp [hc']))

theorem foldl_xorCells_getD (cs : List Cell) (acc : Cell) (N b : Nat)
    (hacc : acc.length = N) (hcs : ∀ c ∈ cs, c.length = N) (hb : b < N) :
    (cs.foldl xorCells acc).getD b 0 =
      (cs.map fun c => c.getD b 0).foldl Nat.xor (acc.getD b 0) := by
  induction cs generalizing acc with
  | nil => rfl
  | cons c cs ih =>
    have h1 : (xorCells acc c).length = N := by
      simp [length_xorCells, hacc, hcs c (by simp)]
    have := ih (xorCells acc c) h1 (fun c' hc' => hcs c' (by simp [hc']))
    simp only [List.foldl_cons, List.map_cons, this,
      getD_xorCells acc c b (by omega) (by rw [hcs c (by simp)]; omega)]

theorem length_xorAll (cs : List Cell) (N : Nat) (hcs : ∀ c ∈ cs, c.length = N) :
    (xorAll cs N).length = N :=
  foldl_xorCells_length cs _ N (by simp) hcs

theorem foldl_xor_init (l : List Nat) (x : Nat) :
    l.foldl Nat.xor x = Nat.xor x (bxor l) := by
  induction l generalizing x with
  | nil => exact (Nat.xor_zero x).symm
  | cons a l ih =>
    show (l.foldl Nat.xor (Nat.xor x a)) = Nat.xor x (List.foldl Nat.xor (Nat.xor 0 a) l)
    rw [ih (Nat.xor x a), ih (Nat.xor 0 a)]
    have hz : Nat.xor 0 a = a := Nat.zero_xor a
    rw [hz]
    exact Nat.xor_assoc x a (bxor l)

theorem getD_replicate_zero (N b : Nat) (hb : b < N) :
    (List.replicate N (0 : Nat)).getD b 0 = 0 := by
  rw [getD_eq_getElem_of_lt _ _ (by simpa using hb)]
  exact List.getElem_replicate 0 (by simpa using hb)

theorem getD_xorAll (cs : List Cell) (N b : Nat)
    (hcs : ∀ c ∈ cs, c.length = N) (hb : b < N) :
    (xorAll cs N).getD b 0 = bxor (cs.map fun c => c.getD b 0) := by
  rw [xorAll, foldl_xorCells_getD cs _ N b (by simp) hcs hb,
    foldl_xor_init, getD_replicate_zero N b hb]
  exact Nat.zero_xor _

theorem xorAll_eq_map (cs : List Cell) (N : Nat) (hcs : ∀ c ∈ cs, c.length = N) :
    xorAll cs N = (List.range N).map fun b => bxor (cs.map fun c => c.getD b 0) := by
  apply List.ext_getElem
  · simp [length_xorAll cs N hcs]
  · intro b h1 h2
    have hb : b < N := by simpa [length_xorAll cs N hcs] using h1
    rw [List.getElem_map, List.getElem_range,
      ← getD_eq_getElem_of_lt _ 0 h1, getD_xorAll cs N b hcs hb]

theorem bxor_append (l1 l2 : List Nat) :
    bxor (l1 ++ l2) = Nat.xor (bxor l1) (bxor l2) := by
  rw [bxor, List.foldl_append, foldl_xor_init]
  rfl

theorem xor_shuffle (A B x : Nat) : Nat.xor (Nat.xor A (Nat.xor x B)) x = Nat.xor A B := by
  show A ^^^ (x ^^^ B) ^^^ x = A ^^^ B
  rw [Nat.xor_comm x B, ← Nat.xor_assoc, Nat.xor_assoc (A ^^^ B) x x,
    Nat.xor_self, Nat.xor_zero]

theorem bxor_eraseIdx (l : List Nat) (i : Nat) (hi : i < l.length) :
    bxor (l.eraseIdx i) = Nat.xor (bxor l) (l.getD i 0) := by
  obtain ⟨x, hx⟩ : ∃ x, l.getD i 0 = x := ⟨_, rfl⟩
  have hdecomp : l = l.take i ++ x :: l.drop (i + 1) := by
    conv_lhs => rw [← List.take_append_drop i l]
    congr 1
    rw [← hx, getD_eq_getElem_of_lt _ _ hi, List.drop_eq_getElem_cons hi]
  rw [hx, List.eraseIdx_eq_take_drop_succ, bxor_append]
  conv_rhs => rw [hdecomp]
  rw [show (x :: l.drop (i+1)) = [x] ++ l.drop (i+1) from rfl, bxor_append, bxor_append]
  have h1 : bxor [x] = x := Nat.zero_xor x
  rw [h1]
  generalize bxor (l.take i) = A
  generalize bxor (l.drop (i+1)) = B
  exact (xor_shuffle A B x).symm

theorem map_take_eq_range_map {α β : Type} (l : List α) (k : Nat) (hk : k ≤ l.length)
    (f : α → β) (d : α) :
    (l.take k).map f = (List.range k).map fun i => f (l.getD i d) := by
  apply List.ext_getElem
  · simp; omega
  · intro i h1 h2
    have hik : i < k := by simpa using h2
    rw [List.getElem_map, List.getElem_map, List.getElem_range, List.getElem_take,
      getD_eq_getElem_of_lt _ _ (by omega)]

/-! ## C5: RAID3 scrub -/

/-- C5: RAID3 `scrub()` recomputes the parity as the bytewise XOR of the
data cells `0..DATA-1`; when the stored parity cell `D-1` equals that
value the stripe and disks are untouched and the empty list is returned,
otherwise only the parity cell is overwritten with the recomputed value
and exactly `[D-1]` is returned. -/
theorem c5_raid3_scrub (D N : Nat) (st : List Cell)
    (hD : 2 ≤ D) (hlen : st.length = D) (hc : ∀ c ∈ st, c.length = N) :
    (st.getD (D - 1) [] =
        ((List.range N).map fun b =>
          bxor ((List.range (D - 1)).map fun c => (st.getD c []).getD b 0)) →
      raid3Scrub D N st = (st, [])) ∧
    (st.getD (D - 1) [] ≠
        ((List.range N).map fun b =>
          bxor ((List.range (D - 1)).map fun c => (st.getD c []).getD b 0)) →
      raid3Scrub D N st =
        (st.set (D - 1)
          ((List.range N).map fun b =>
            bxor ((List.range (D - 1)).map fun c => (st.getD c []).getD b 0)),
         [D - 1])) := by
  have hp : xorAll (st.take (D - 1)) N =
      (List.range N).map fun b =>
        bxor ((List.range (D - 1)).map fun c => (st.getD c []).getD b 0) := by
    rw [xorAll_eq_map _ N (fun c hcm => hc c (List.mem_of_mem_take hcm))]
    refine congrArg (fun f => List.map f (List.range N)) (funext fun b => ?_)
    exact congrArg bxor (map_take_eq_range_map st (D - 1) (by omega) _ [])
  constructor
  · intro heq
    rw [raid3Scrub, hp, if_pos heq]
  · intro hne
    rw [raid3Scrub, hp, if_neg hne]

/-! ## C6: Array::write per-disk behaviour -/

theorem getDisk_arrayWrite (disks : List DiskM) (off : Nat) (cells : List Cell) (j : Nat)
    (hj : j < disks.length) (hlen : cells.length = disks.length) :
    getDisk (arrayWrite disks off cells) j =
      (if (getDisk disks j).missing then getDisk disks j
       else
         let d := diskWriteAt (getDisk disks j) off (cells.getD j [])
         if diskWriteCount (getDisk disks j) off (cells.getD j []).length
             = (cells.getD j []).length
         then { d with needsRebuild := false } else d) := by
  have hzlen : (disks.zip cells).length = disks.length := by
    rw [List.length_zip, hlen]; omega
  rw [getDisk, arrayWrite,
    getD_eq_getElem_of_lt _ _ (by rw [List.length_map, hzlen]; exact hj),
    List.getElem_map, List.getElem_zip]
  rw [getDisk, getD_eq_getElem_of_lt _ _ hj,
    getD_eq_getElem_of_lt _ _ (by omega : j < cells.length)]

/-- C6: in `Array::write(off, stripe)` a missing disk is skipped
unchanged; an operational disk receives cell `j`'s raw bytes at offset
`off` (with end-of-disk truncation), and its untrusted flag is cleared
exactly when all `N` bytes of the chunk were written (a truncated write
leaves the flag as it was). -/
theorem c6_array_write_per_disk (disks : List DiskM) (off : Nat) (cells : List Cell)
    (N j : Nat) (hj : j < disks.length) (hlen : cells.length = disks.length)
    (hcell : (cells.getD j []).length = N) :
    ((getDisk disks j).missing = true →
      getDisk (arrayWrite disks off cells) j = getDisk disks j) ∧
    ((getDisk disks j).missing = false →
      (getDisk (arrayWrite disks off cells) j).len = (getDisk disks j).len ∧
      (getDisk (arrayWrite disks off cells) j).missing = false ∧
      ((getDisk (arrayWrite disks off cells) j).needsRebuild = true ↔
        ((getDisk disks j).needsRebuild = true ∧
         diskWriteCount (getDisk disks j) off N ≠ N)) ∧
      (∀ p, (getDisk (arrayWrite disks off cells) j).data p =
        if off ≤ p ∧ p < off + diskWriteCount (getDisk disks j) off N
        then (cells.getD j []).getD (p - off) 0
        else (getDisk disks j).data p)) := by
  rw [getDisk_arrayWrite disks off cells j hj hlen]
  constructor
  · intro hmiss; rw [if_pos hmiss]
  · intro hmiss
    have hcl : (cells[j]?.getD []).length = N := by
      simpa [List.getD_eq_getElem?_getD] using hcell
    rw [if_neg (by simp [hmiss])]
    rw [hcell]
    by_cases hfull : diskWriteCount (getDisk disks j) off N = N
    · rw [if_pos hfull]
      refine ⟨rfl, by simp [diskWriteAt, hmiss], by simp [hfull], fun p => ?_⟩
      simp [diskWriteAt, hcl]
    · rw [if_neg hfull]
      refine ⟨rfl, by simp [diskWriteAt, hmiss], by simp [diskWriteAt, hfull], fun p => ?_⟩
      simp [diskWriteAt, hcl]

/-! ## C7: rebuild_disk_upto guards -/

/-- C7 (amended): `rebuild_disk_upto(i, end)` returns a typed error and
leaves the volume untouched whenever `i ≥ D`, for every layout.  When the
layout offers restore — which RAID1 and RAID3 do, but RAID0 does not —
it also errors without mutation when disk `i` is missing; for RAID0 the
missing-disk call returns `Ok(())` because the restore-capability guard
returns early, before the missing check. -/
theorem c7_rebuild_guard_amended (L : Layout) (D N : Nat) (v : VolumeM) (i e : Nat)
    (hD : v.disks.length = D) :
    (D ≤ i → rebuildDiskUpto (layoutOps L D N) N v i e =
      (.error "disk index out of range", v)) ∧
    ((layoutOps L D N).hasRestore = true → i < D → (getDisk v.disks i).missing = true →
      rebuildDiskUpto (layoutOps L D N) N v i e =
        (.error "disk is missing/failed; replace it first", v)) ∧
    ((layoutOps .raid1 D N).hasRestore = true ∧
     (layoutOps .raid3 D N).hasRestore = true ∧
     (layoutOps .raid0 D N).hasRestore = false) := by
  refine ⟨?_, ?_, rfl, rfl, rfl⟩
  · intro hi
    rw [rebuildDiskUpto, if_pos (by omega)]
  · intro hres hi hmiss
    rw [rebuildDiskUpto, if_neg (by omega), if_neg (by simp [hres]), if_pos hmiss]

/-- C7 (counterexample to the claim as stated): on a RAID0 volume a
rebuild of a missing disk returns `Ok(())`, not an error. -/
theorem c7_rebuild_guard_counterexample :
    (getDisk ([⟨1, fun _ => 0, true, false⟩] : List DiskM) 0).missing = true ∧
    (rebuildDiskUpto (layoutOps .raid0 1 1) 1
      ⟨[⟨1, fun _ => 0, true, false⟩], [[0]]⟩ 0 5).1 = .ok () :=
  ⟨rfl, rfl⟩

/-! ## C8: stripes_needed_for_logical_end -/

/-- C8 (amended): `stripes_needed_for_logical_end(e)` equals
`⌈min(e, capacity) / (DATA·N)⌉`; in particular it is `0` at `e = 0`, and
at `e = capacity` it equals `capacity / (DATA·N)` provided `DATA·N`
divides the capacity (otherwise the two differ, see the
counterexample). -/
theorem c8_stripes_needed_amended (ops : StripeOps) (N : Nat) (v : VolumeM) (e : Nat) :
    (stripesNeeded ops N v e =
      (min e (logicalCapacityBytes ops v) + ops.dataN * N - 1) / (ops.dataN * N)) ∧
    stripesNeeded ops N v 0 = 0 ∧
    (ops.dataN * N ∣ logicalCapacityBytes ops v →
      stripesNeeded ops N v (logicalCapacityBytes ops v) =
        logicalCapacityBytes ops v / (ops.dataN * N)) := by
  have main : ∀ x : Nat, stripesNeeded ops N v x =
      (min x (logicalCapacityBytes ops v) + ops.dataN * N - 1) / (ops.dataN * N) := by
    intro x
    rw [stripesNeeded]
    set bps := ops.dataN * N with hbps
    set m := min x (logicalCapacityBytes ops v) with hm
    by_cases h0 : bps = 0
    · rw [if_pos h0, h0, Nat.div_zero]
    · rw [if_neg h0]
      have hbpos : 0 < bps := Nat.pos_of_ne_zero h0
      by_cases hm0 : m = 0
      · rw [if_pos hm0, hm0]
        exact (Nat.div_eq_of_lt (by omega)).symm
      · rw [if_neg hm0]
        obtain ⟨q, r, hqr, hr⟩ : ∃ q r, m = bps * q + r ∧ r < bps :=
          ⟨m / bps, m % bps, (Nat.div_add_mod m bps).symm, Nat.mod_lt m hbpos⟩
        have hdiv : m / bps = q := by
          rw [hqr, Nat.add_comm, Nat.add_mul_div_left r q hbpos, Nat.div_eq_of_lt hr]
          omega
        have hmod : m % bps = r := by
          rw [hqr, Nat.add_comm, Nat.add_mul_mod_self_left]
          exact Nat.mod_eq_of_lt hr
        by_cases hrz : r = 0
        · rw [if_pos (by rw [hmod, hrz]), hdiv]
          have h2 : m + bps - 1 = (r + (bps - 1)) + bps * q := by omega
          rw [h2, Nat.add_mul_div_left _ q hbpos, hrz,
            Nat.div_eq_of_lt (by omega : 0 + (bps - 1) < bps)]
          omega
        · rw [if_neg (by rw [hmod]; exact hrz), hdiv]
          have hexp : bps * (q + 1) = bps * q + bps := by ring
          have h2 : m + bps - 1 = (r - 1) + bps * (q + 1) := by omega
          rw [h2, Nat.add_mul_div_left _ (q + 1) hbpos,
            Nat.div_eq_of_lt (by omega : r - 1 < bps)]
          omega
  refine ⟨main e, ?_, ?_⟩
  · rw [stripesNeeded]
    by_cases h0 : ops.dataN * N = 0
    · rw [if_pos h0]
    · rw [if_neg h0, if_pos (by simp)]
  · intro hdvd
    obtain ⟨k, hk⟩ := hdvd
    rw [main]
    by_cases h0 : ops.dataN * N = 0
    · rw [h0, Nat.div_zero, Nat.div_zero]
    · have hbpos : 0 < ops.dataN * N := Nat.pos_of_ne_zero h0
      rw [Nat.min_self, hk]
      have h2 : ops.dataN * N * k + ops.dataN * N - 1 =
          (ops.dataN * N - 1) + (ops.dataN * N) * k := by omega
      rw [h2, Nat.add_mul_div_left _ k hbpos, Nat.div_eq_of_lt (by omega),
        Nat.mul_div_cancel_left k hbpos]
      omega

/-! ## C4: RAID1 scrub -/

theorem raid1_best_fold_spec (st : List Cell) (order : List Cell) (init : Cell × Nat) :
    init.2 ≤ (order.foldl
        (fun bc v => if bc.2 < cellCount st v then (v, cellCount st v) else bc) init).2 ∧
    (∀ v ∈ order, cellCount st v ≤ (order.foldl
        (fun bc v => if bc.2 < cellCount st v then (v, cellCount st v) else bc) init).2) ∧
    ((order.foldl
        (fun bc v => if bc.2 < cellCount st v then (v, cellCount st v) else bc) init) = init ∨
      ((order.foldl
          (fun bc v => if bc.2 < cellCount st v then (v, cellCount st v) else bc) init).1 ∈ order ∧
       (order.foldl
          (fun bc v => if bc.2 < cellCount st v then (v, cellCount st v) else bc) init).2 =
        cellCount st (order.foldl
          (fun bc v => if bc.2 < cellCount st v then (v, cellCount st v) else bc) init).1)) := by
  induction order generalizing init with
  | nil => exact ⟨Nat.le_refl _, by simp, Or.inl rfl⟩
  | cons a rest ih =>
    simp only [List.foldl_cons]
    obtain ⟨ih1, ih2, ih3⟩ :=
      ih (if init.2 < cellCount st a then (a, cellCount st a) else init)
    have hstep : init.2 ≤ (if init.2 < cellCount st a then (a, cellCount st a) else init).2 := by
      by_cases h : init.2 < cellCount st a <;> simp [h] <;> omega
    have hstepa : cellCount st a ≤
        (if init.2 < cellCount st a then (a, cellCount st a) else init).2 := by
      by_cases h : init.2 < cellCount st a <;> simp [h] <;> omega
    refine ⟨Nat.le_trans hstep ih1, ?_, ?_⟩
    · intro v hv
      rcases List.mem_cons.1 hv with rfl | hv
      · exact Nat.le_trans hstepa ih1
      · exact ih2 v hv
    · rcases ih3 with heq | ⟨hmem, hcnt⟩
      · rw [heq]
        by_cases h : init.2 < cellCount st a
        · simp [h]
        · simp [h]
      · exact Or.inr ⟨List.mem_cons_of_mem a hmem, hcnt⟩

/-- C4 (amended): for every nonempty RAID1 stripe state and every legal
iteration order of the count map, `scrub()` picks a value of maximal
multiplicity among the `D` cells (the tie between equally frequent values
is broken by the unspecified map iteration order, not necessarily by the
first-seen value), overwrites every cell that differs from it, and
returns exactly the indices of the overwritten cells. -/
theorem c4_scrub_amended (st order : List Cell) (hne : st ≠ [])
    (hord : ValidOrder st order) :
    raid1ScrubBest st order ∈ st ∧
    (∀ v ∈ st, cellCount st v ≤ cellCount st (raid1ScrubBest st order)) ∧
    (raid1ScrubWithOrder st order).1 =
      List.replicate st.length (raid1ScrubBest st order) ∧
    (∀ i, i < st.length →
      (i ∈ (raid1ScrubWithOrder st order).2 ↔
        st.getD i [] ≠ raid1ScrubBest st order)) := by
  obtain ⟨h1, h2, h3⟩ := raid1_best_fold_spec st order (st.getD 0 [], 0)
  have hmemst : ∀ v, v ∈ order → v ∈ st := fun v hv =>
    List.mem_dedup.1 (hord.mem_iff.1 hv)
  have hmemord : ∀ v, v ∈ st → v ∈ order := fun v hv =>
    hord.mem_iff.2 (List.mem_dedup.2 hv)
  have hbest : raid1ScrubBest st order ∈ st ∧
      cellCount st (raid1ScrubBest st order) =
        (order.foldl
          (fun bc v => if bc.2 < cellCount st v then (v, cellCount st v) else bc)
          (st.getD 0 [], 0)).2 := by
    rcases h3 with heq | ⟨hmem, hcnt⟩
    · exfalso
      obtain ⟨v, hv⟩ := List.exists_mem_of_ne_nil st hne
      have hvord : v ∈ order := hmemord v hv
      have hpos : 0 < cellCount st v := List.count_pos_iff.2 hv
      have := h2 v hvord
      rw [heq] at this
      omega
    · exact ⟨hmemst _ hmem, hcnt.symm⟩
  refine ⟨hbest.1, ?_, ?_, ?_⟩
  · intro v hv
    rw [hbest.2]
    exact h2 v (hmemord v hv)
  · rw [raid1ScrubWithOrder]
    rw [List.eq_replicate_iff]
    refine ⟨by simp, ?_⟩
    intro b hb
    obtain ⟨c, _, hc⟩ := List.mem_map.1 hb
    by_cases hcb : c = raid1ScrubBest st order
    · rw [← hc, if_pos hcb, hcb]
    · rw [← hc, if_neg hcb]
  · intro i hi
    rw [raid1ScrubWithOrder]
    simp [List.mem_filter, List.mem_range, hi]

/-- C8 (counterexample to the claim as stated): with `D = 2`, `N = 4`,
`disk_len = 5` (RAID0), the capacity is `10` and `DATA·N = 8`, so
`stripes_needed(capacity) = 2` while `capacity / (DATA·N) = 1`. -/
theorem c8_stripes_needed_counterexample :
    logicalCapacityBytes (layoutOps .raid0 2 4)
      ⟨[⟨5, fun _ => 0, false, false⟩, ⟨5, fun _ => 0, false, false⟩], []⟩ = 10 ∧
    stripesNeeded (layoutOps .raid0 2 4) 4
      ⟨[⟨5, fun _ => 0, false, false⟩, ⟨5, fun _ => 0, false, false⟩], []⟩ 10 = 2 ∧
    (10 : Nat) / ((layoutOps .raid0 2 4).dataN * 4) = 1 ∧ (2 : Nat) ≠ 1 :=
  ⟨rfl, rfl, rfl, by decide⟩

/-- C4 (counterexample to the claim as stated): on the two-cell stripe
`[[0], [1]]` the multiplicities are tied, the first-seen value is `[0]`,
yet under the legal map iteration order `[[1], [0]]` scrub picks `[1]`
and overwrites cell 0 — not the outcome `([[0], [0]], [1])` the
first-seen tie-break predicts. -/
theorem c4_scrub_counterexample :
    ValidOrder [[0], [1]] [[1], [0]] ∧
    raid1ScrubWithOrder [[0], [1]] [[1], [0]] = ([[1], [1]], [0]) ∧
    raid1ScrubWithOrder [[0], [1]] [[1], [0]] ≠ ([[0], [0]], [1]) := by
  refine ⟨?_, by decide, by decide⟩
  show List.Perm [[1], [0]] (List.dedup [[0], [1]])
  decide

/-! ## C10: Array::read write-back frame -/

theorem getD_length_le (raw : List Cell) (N i : Nat)
    (hraw : ∀ c ∈ raw, c.length ≤ N) : (raw.getD i []).length ≤ N := by
  by_cases hi : i < raw.length
  · rw [getD_eq_getElem_of_lt _ _ hi]
    exact hraw _ (List.getElem_mem hi)
  · rw [getD_eq_default_of_le _ _ (by omega)]
    exact Nat.zero_le N

theorem diskWriteAt_frame (d : DiskM) (off : Nat) (bytes : List Nat) :
    (diskWriteAt d off bytes).len = d.len ∧
    (diskWriteAt d off bytes).missing = d.missing ∧
    (diskWriteAt d off bytes).needsRebuild = d.needsRebuild ∧
    ∀ p, p < off ∨ off + bytes.length ≤ p → (diskWriteAt d off bytes).data p = d.data p := by
  refine ⟨rfl, rfl, rfl, fun p hp => ?_⟩
  have hk : diskWriteCount d off bytes.length ≤ bytes.length := by
    rw [diskWriteCount]
    split
    · omega
    · omega
  simp only [diskWriteAt]
  rw [if_neg (by omega)]

theorem writeBack_props (rep : List Nat) (disks : List DiskM) (off : Nat)
    (raw : List Cell) (N : Nat) (hraw : ∀ c ∈ raw, c.length ≤ N) :
    (writeBack disks off raw rep).length = disks.length ∧
    (∀ j, j ∉ rep → getDisk (writeBack disks off raw rep) j = getDisk disks j) ∧
    (∀ j, (getDisk disks j).missing = true →
      getDisk (writeBack disks off raw rep) j = getDisk disks j) ∧
    (∀ j, (getDisk (writeBack disks off raw rep) j).len = (getDisk disks j).len ∧
      (getDisk (writeBack disks off raw rep) j).missing = (getDisk disks j).missing ∧
      (getDisk (writeBack disks off raw rep) j).needsRebuild =
        (getDisk disks j).needsRebuild ∧
      ∀ p, p < off ∨ off + N ≤ p →
        (getDisk (writeBack disks off raw rep) j).data p = (getDisk disks j).data p) := by
  induction rep generalizing disks with
  | nil => exact ⟨rfl, fun _ _ => rfl, fun _ _ => rfl, fun _ => ⟨rfl, rfl, rfl, fun _ _ => rfl⟩⟩
  | cons i rest ih =>
    have hstep : writeBack disks off raw (i :: rest) =
        writeBack
          (if disks.length ≤ i then disks
           else if (getDisk disks i).missing then disks
           else disks.set i (diskWriteAt (getDisk disks i) off (raw.getD i [])))
          off raw rest := by
      rw [writeBack, List.foldl_cons, ← writeBack]
    set ds1 := (if disks.length ≤ i then disks
      else if (getDisk disks i).missing then disks
      else disks.set i (diskWriteAt (getDisk disks i) off (raw.getD i []))) with hds1
    have hlen1 : ds1.length = disks.length := by
      rw [hds1]
      split
      · rfl
      · split
        · rfl
        · exact List.length_set disks i _
    have hne1 : ∀ j, j ≠ i → getDisk ds1 j = getDisk disks j := by
      intro j hj
      rw [hds1]
      split
      · rfl
      · split
        · rfl
        · rw [getDisk_set, if_neg (by intro h; exact hj h.1.symm)]
    have hframe1 : ∀ j, (getDisk ds1 j).len = (getDisk disks j).len ∧
        (getDisk ds1 j).missing = (getDisk disks j).missing ∧
        (getDisk ds1 j).needsRebuild = (getDisk disks j).needsRebuild ∧
        ∀ p, p < off ∨ off + N ≤ p →
          (getDisk ds1 j).data p = (getDisk disks j).data p := by
      intro j
      by_cases hj : j = i
      · subst hj
        rw [hds1]
        split
        · exact ⟨rfl, rfl, rfl, fun _ _ => rfl⟩
        · split
          · exact ⟨rfl, rfl, rfl, fun _ _ => rfl⟩
          · rw [getDisk_set]
            by_cases hjl : j < disks.length
            · rw [if_pos ⟨rfl, hjl⟩]
              obtain ⟨f1, f2, f3, f4⟩ := diskWriteAt_frame (getDisk disks j) off (raw.getD j [])
              refine ⟨f1, f2, f3, fun p hp => f4 p ?_⟩
              have := getD_length_le raw N j hraw
              omega
            · rw [if_neg (by tauto)]
              exact ⟨rfl, rfl, rfl, fun _ _ => rfl⟩
      · rw [hne1 j hj]
        exact ⟨rfl, rfl, rfl, fun _ _ => rfl⟩
    have hmiss1 : ∀ j, (getDisk disks j).missing = true → getDisk ds1 j = getDisk disks j := by
      intro j hm
      by_cases hj : j = i
      · subst hj
        rw [hds1]
        by_cases hL : disks.length ≤ j
        · rw [if_pos hL]
        · rw [if_neg hL, if_pos hm]
      · exact hne1 j hj
    obtain ⟨ih1, ih2, ih3, ih4⟩ := ih ds1
    rw [hstep]
    refine ⟨by rw [ih1, hlen1], ?_, ?_, ?_⟩
    · intro j hj
      rw [ih2 j (fun h => hj (List.mem_cons_of_mem i h)),
        hne1 j (fun h => hj (h ▸ List.mem_cons_self i rest))]
    · intro j hm
      rw [ih3 j (by rw [(hframe1 j).2.1, hm]), hmiss1 j hm]
    · intro j
      obtain ⟨g1, g2, g3, g4⟩ := ih4 j
      obtain ⟨f1, f2, f3, f4⟩ := hframe1 j
      exact ⟨g1.trans f1, g2.trans f2, g3.trans f3,
        fun p hp => (g4 p hp).trans (f4 p hp)⟩

/-- C10: `Array::read(off, stripe)` mutates disk contents only through
the write-back of repaired indices: every disk whose index is not in the
repaired list — and every missing disk — is returned untouched, flags and
lengths never change, bytes outside `[off, off + N)` never change, and
when the repaired list is empty (no restore and an empty scrub result)
every disk is returned exactly as it was. -/
theorem c10_read_frame (ops : StripeOps) (N : Nat) (disks : List DiskM) (off : Nat)
    (st : List Cell)
    (hraw : ∀ c ∈ ops.readRaw (arrayReadStripe ops N disks off st), c.length ≤ N) :
    ((arrayRead ops N disks off st).1.length = disks.length ∧
     (∀ j, j ∉ arrayReadRepaired ops N disks off st →
       getDisk (arrayRead ops N disks off st).1 j = getDisk disks j) ∧
     (∀ j, (getDisk disks j).missing = true →
       getDisk (arrayRead ops N disks off st).1 j = getDisk disks j) ∧
     (∀ j, (getDisk (arrayRead ops N disks off st).1 j).len = (getDisk disks j).len ∧
       (getDisk (arrayRead ops N disks off st).1 j).missing = (getDisk disks j).missing ∧
       (getDisk (arrayRead ops N disks off st).1 j).needsRebuild =
         (getDisk disks j).needsRebuild ∧
       ∀ p, p < off ∨ off + N ≤ p →
         (getDisk (arrayRead ops N disks off st).1 j).data p = (getDisk disks j).data p)) ∧
    (arrayReadRepaired ops N disks off st = [] →
      (arrayRead ops N disks off st).1 = disks) := by
  rcases hops : ops.restoreMut with _ | r
  · constructor
    · rw [arrayRead, hops]
      exact ⟨rfl, fun _ _ => rfl, fun _ _ => rfl, fun _ => ⟨rfl, rfl, rfl, fun _ _ => rfl⟩⟩
    · intro _
      rw [arrayRead, hops]
  · have harr : (arrayRead ops N disks off st).1 =
        writeBack disks off (ops.readRaw (arrayReadStripe ops N disks off st))
          (arrayReadRepaired ops N disks off st) := by
      rw [arrayRead, hops]
    constructor
    · rw [harr]
      obtain ⟨w1, w2, w3, w4⟩ :=
        writeBack_props (arrayReadRepaired ops N disks off st) disks off
          (ops.readRaw (arrayReadStripe ops N disks off st)) N hraw
      exact ⟨w1, w2, w3, w4⟩
    · intro hrep
      rw [harr, hrep, writeBack]
      rfl

/-! ## C3: RAID1 single-disk failure is not masked -/

/-- C3 (the code contradicts the claim): on a two-disk RAID1 volume with
one-byte chunks, writing byte `7` at offset 0 and reading it back yields
`[7]`; after `fail_disk(0)` the same read yields `[0]`, because the RAID1
`Stripe` impl does not override `as_restore_mut`, so `Array::read` never
invokes the RAID1 restore/scrub path and the logical view (cell 0) stays
zeroed. -/
theorem c3_raid1_failure_divergence :
    (readBytes (layoutOps .raid1 2 1) 1
      (writeBytes (layoutOps .raid1 2 1) 1
        ⟨[⟨1, fun _ => 0, false, false⟩, ⟨1, fun _ => 0, false, false⟩], []⟩ 0 [7])
      0 [0]).1 = [7] ∧
    (readBytes (layoutOps .raid1 2 1) 1
      (failDisk
        (writeBytes (layoutOps .raid1 2 1) 1
          ⟨[⟨1, fun _ => 0, false, false⟩, ⟨1, fun _ => 0, false, false⟩], []⟩ 0 [7])
        0)
      0 [0]).1 = [0] ∧
    ([0] : List Nat) ≠ [7] :=
  ⟨rfl, rfl, by decide⟩

/-! ## Witnesses -/

theorem c5_raid3_scrub_witness :
    (2 ≤ 2 ∧ ([[1], [1]] : List Cell).length = 2 ∧
      (∀ c ∈ ([[1], [1]] : List Cell), c.length = 1)) ∧
    ((([[1], [1]] : List Cell).getD (2 - 1) [] =
        ((List.range 1).map fun b =>
          bxor ((List.range (2 - 1)).map fun c =>
            (([[1], [1]] : List Cell).getD c []).getD b 0)) →
      raid3Scrub 2 1 [[1], [1]] = ([[1], [1]], [])) ∧
    (([[1], [1]] : List Cell).getD (2 - 1) [] ≠
        ((List.range 1).map fun b =>
          bxor ((List.range (2 - 1)).map fun c =>
            (([[1], [1]] : List Cell).getD c []).getD b 0)) →
      raid3Scrub 2 1 [[1], [1]] =
        (([[1], [1]] : List Cell).set (2 - 1)
          ((List.range 1).map fun b =>
            bxor ((List.range (2 - 1)).map fun c =>
              (([[1], [1]] : List Cell).getD c []).getD b 0)),
         [2 - 1]))) :=
  ⟨⟨by decide, by decide, by decide⟩,
   c5_raid3_scrub 2 1 [[1], [1]] (by decide) (by decide) (by decide)⟩

theorem c6_array_write_per_disk_witness :
    ((0 : Nat) < 1 ∧ ([[9]] : List Cell).length = 1 ∧
      (([[9]] : List Cell).getD 0 []).length = 1) ∧
    (((getDisk [⟨1, fun _ => 0, false, false⟩] 0).missing = true →
      getDisk (arrayWrite [⟨1, fun _ => 0, false, false⟩] 0 [[9]]) 0 =
        getDisk [⟨1, fun _ => 0, false, false⟩] 0) ∧
    ((getDisk [⟨1, fun _ => 0, false, false⟩] 0).missing = false →
      (getDisk (arrayWrite [⟨1, fun _ => 0, false, false⟩] 0 [[9]]) 0).len =
        (getDisk [⟨1, fun _ => 0, false, false⟩] 0).len ∧
      (getDisk (arrayWrite [⟨1, fun _ => 0, false, false⟩] 0 [[9]]) 0).missing = false ∧
      ((getDisk (arrayWrite [⟨1, fun _ => 0, false, false⟩] 0 [[9]]) 0).needsRebuild = true ↔
        ((getDisk [⟨1, fun _ => 0, false, false⟩] 0).needsRebuild = true ∧
         diskWriteCount (getDisk [⟨1, fun _ => 0, false, false⟩] 0) 0 1 ≠ 1)) ∧
      (∀ p, (getDisk (arrayWrite [⟨1, fun _ => 0, false, false⟩] 0 [[9]]) 0).data p =
        if 0 ≤ p ∧ p < 0 + diskWriteCount (getDisk [⟨1, fun _ => 0, false, false⟩] 0) 0 1
        then (([[9]] : List Cell).getD 0 []).getD (p - 0) 0
        else (getDisk [⟨1, fun _ => 0, false, false⟩] 0).data p))) :=
  ⟨⟨by decide, by decide, by decide⟩,
   c6_array_write_per_disk [⟨1, fun _ => 0, false, false⟩] 0 [[9]] 1 0
     (by decide) (by decide) (by decide)⟩

theorem c7_rebuild_guard_amended_witness :
    ((⟨[⟨1, fun _ => 0, true, false⟩, ⟨1, fun _ => 0, true, false⟩], []⟩ :
        VolumeM).disks.length = 2) ∧
    ((2 ≤ 0 → rebuildDiskUpto (layoutOps .raid3 2 1) 1
        ⟨[⟨1, fun _ => 0, true, false⟩, ⟨1, fun _ => 0, true, false⟩], []⟩ 0 0 =
      (.error "disk index out of range",
        ⟨[⟨1, fun _ => 0, true, false⟩, ⟨1, fun _ => 0, true, false⟩], []⟩)) ∧
    ((layoutOps .raid3 2 1).hasRestore = true → 0 < 2 →
      (getDisk (⟨[⟨1, fun _ => 0, true, false⟩, ⟨1, fun _ => 0, true, false⟩], []⟩ :
          VolumeM).disks 0).missing = true →
      rebuildDiskUpto (layoutOps .raid3 2 1) 1
        ⟨[⟨1, fun _ => 0, true, false⟩, ⟨1, fun _ => 0, true, false⟩], []⟩ 0 0 =
        (.error "disk is missing/failed; replace it first",
          ⟨[⟨1, fun _ => 0, true, false⟩, ⟨1, fun _ => 0, true, false⟩], []⟩)) ∧
    ((layoutOps .raid1 2 1).hasRestore = true ∧
     (layoutOps .raid3 2 1).hasRestore = true ∧
     (layoutOps .raid0 2 1).hasRestore = false)) :=
  ⟨rfl, c7_rebuild_guard_amended .raid3 2 1
    ⟨[⟨1, fun _ => 0, true, false⟩, ⟨1, fun _ => 0, true, false⟩], []⟩ 0 0 rfl⟩

theorem c8_stripes_needed_amended_witness :
    (stripesNeeded (layoutOps .raid0 1 1) 1 ⟨[⟨1, fun _ => 0, false, false⟩], []⟩ 1 =
      (min 1 (logicalCapacityBytes (layoutOps .raid0 1 1)
          ⟨[⟨1, fun _ => 0, false, false⟩], []⟩) +
        (layoutOps .raid0 1 1).dataN * 1 - 1) / ((layoutOps .raid0 1 1).dataN * 1)) ∧
    stripesNeeded (layoutOps .raid0 1 1) 1 ⟨[⟨1, fun _ => 0, false, false⟩], []⟩ 0 = 0 ∧
    ((layoutOps .raid0 1 1).dataN * 1 ∣
        logicalCapacityBytes (layoutOps .raid0 1 1) ⟨[⟨1, fun _ => 0, false, false⟩], []⟩ →
      stripesNeeded (layoutOps .raid0 1 1) 1 ⟨[⟨1, fun _ => 0, false, false⟩], []⟩
          (logicalCapacityBytes (layoutOps .raid0 1 1)
            ⟨[⟨1, fun _ => 0, false, false⟩], []⟩) =
        logicalCapacityBytes (layoutOps .raid0 1 1) ⟨[⟨1, fun _ => 0, false, false⟩], []⟩ /
          ((layoutOps .raid0 1 1).dataN * 1)) :=
  c8_stripes_needed_amended (layoutOps .raid0 1 1) 1 ⟨[⟨1, fun _ => 0, false, false⟩], []⟩ 1

theorem c4_scrub_amended_witness :
    (([[0], [1]] : List Cell) ≠ [] ∧ ValidOrder [[0], [1]] [[0], [1]]) ∧
    (raid1ScrubBest [[0], [1]] [[0], [1]] ∈ ([[0], [1]] : List Cell) ∧
     (∀ v ∈ ([[0], [1]] : List Cell),
       cellCount [[0], [1]] v ≤ cellCount [[0], [1]] (raid1ScrubBest [[0], [1]] [[0], [1]])) ∧
     (raid1ScrubWithOrder [[0], [1]] [[0], [1]]).1 =
       List.replicate ([[0], [1]] : List Cell).length (raid1ScrubBest [[0], [1]] [[0], [1]]) ∧
     (∀ i, i < ([[0], [1]] : List Cell).length →
       (i ∈ (raid1ScrubWithOrder [[0], [1]] [[0], [1]]).2 ↔
         ([[0], [1]] : List Cell).getD i [] ≠ raid1ScrubBest [[0], [1]] [[0], [1]]))) :=
  ⟨⟨by decide, by show List.Perm [[0], [1]] (List.dedup [[0], [1]]); decide⟩,
   c4_scrub_amended [[0], [1]] [[0], [1]] (by decide)
     (by show List.Perm [[0], [1]] (List.dedup [[0], [1]]); decide)⟩

theorem c10_read_frame_witness :
    (∀ c ∈ (layoutOps .raid0 1 1).readRaw
        (arrayReadStripe (layoutOps .raid0 1 1) 1 [⟨1, fun _ => 0, false, false⟩] 0 [[0]]),
      c.length ≤ 1) ∧
    (((arrayRead (layoutOps .raid0 1 1) 1 [⟨1, fun _ => 0, false, false⟩] 0 [[0]]).1.length =
        ([⟨1, fun _ => 0, false, false⟩] : List DiskM).length ∧
      (∀ j, j ∉ arrayReadRepaired (layoutOps .raid0 1 1) 1
          [⟨1, fun _ => 0, false, false⟩] 0 [[0]] →
        getDisk (arrayRead (layoutOps .raid0 1 1) 1
          [⟨1, fun _ => 0, false, false⟩] 0 [[0]]).1 j =
          getDisk [⟨1, fun _ => 0, false, false⟩] j) ∧
      (∀ j, (getDisk [⟨1, fun _ => 0, false, false⟩] j).missing = true →
        getDisk (arrayRead (layoutOps .raid0 1 1) 1
          [⟨1, fun _ => 0, false, false⟩] 0 [[0]]).1 j =
          getDisk [⟨1, fun _ => 0, false, false⟩] j) ∧
      (∀ j, (getDisk (arrayRead (layoutOps .raid0 1 1) 1
            [⟨1, fun _ => 0, false, false⟩] 0 [[0]]).1 j).len =
          (getDisk [⟨1, fun _ => 0, false, false⟩] j).len ∧
        (getDisk (arrayRead (layoutOps .raid0 1 1) 1
            [⟨1, fun _ => 0, false, false⟩] 0 [[0]]).1 j).missing =
          (getDisk [⟨1, fun _ => 0, false, false⟩] j).missing ∧
        (getDisk (arrayRead (layoutOps .raid0 1 1) 1
            [⟨1, fun _ => 0, false, false⟩] 0 [[0]]).1 j).needsRebuild =
          (getDisk [⟨1, fun _ => 0, false, false⟩] j).needsRebuild ∧
        ∀ p, p < 0 ∨ 0 + 1 ≤ p →
          (getDisk (arrayRead (layoutOps .raid0 1 1) 1
            [⟨1, fun _ => 0, false, false⟩] 0 [[0]]).1 j).data p =
            (getDisk [⟨1, fun _ => 0, false, false⟩] j).data p)) ∧
     (arrayReadRepaired (layoutOps .raid0 1 1) 1 [⟨1, fun _ => 0, false, false⟩] 0 [[0]] = [] →
       (arrayRead (layoutOps .raid0 1 1) 1 [⟨1, fun _ => 0, false, false⟩] 0 [[0]]).1 =
         [⟨1, fun _ => 0, false, false⟩])) :=
  ⟨by decide,
   c10_read_frame (layoutOps .raid0 1 1) 1 [⟨1, fun _ => 0, false, false⟩] 0 [[0]]
     (by decide)⟩

/-! ## Arithmetic on stripe coordinates -/

theorem decomp_div (s p bps : Nat) (hp : p < bps) : (s * bps + p) / bps = s := by
  have hbps : 0 < bps := by omega
  rw [Nat.add_comm, Nat.mul_comm, Nat.add_mul_div_left p s hbps, Nat.div_eq_of_lt hp]
  omega

theorem decomp_mod (s p bps : Nat) (hp : p < bps) : (s * bps + p) % bps = p := by
  rw [Nat.add_comm, Nat.mul_comm, Nat.add_mul_mod_self_left]
  exact Nat.mod_eq_of_lt hp

theorem chunkpos_lt (c b dataN N : Nat) (hc : c < dataN) (hb : b < N) :
    c * N + b < dataN * N := by
  have h1 : c * N + b < (c + 1) * N := by
    rw [Nat.add_mul, Nat.one_mul]; omega
  have h2 : (c + 1) * N ≤ dataN * N := Nat.mul_le_mul_right N (by omega)
  omega

theorem stripe_window_disjoint (s sp b N : Nat) (hb : b < N) (hne : sp ≠ s) :
    sp * N + b < s * N ∨ s * N + N ≤ sp * N + b := by
  rcases Nat.lt_or_ge sp s with h | h
  · left
    have : (sp + 1) * N ≤ s * N := Nat.mul_le_mul_right N (by omega)
    rw [Nat.add_mul, Nat.one_mul] at this
    omega
  · right
    have hlt : s < sp := by omega
    have : (s + 1) * N ≤ sp * N := Nat.mul_le_mul_right N (by omega)
    rw [Nat.add_mul, Nat.one_mul] at this
    omega

theorem stripe_pos_iff (bps sk inS t a : Nat) (hinS : inS < bps) (ht : inS + t ≤ bps) :
    (a / bps = sk ∧ inS ≤ a % bps ∧ a % bps < inS + t) ↔
    (sk * bps + inS ≤ a ∧ a < sk * bps + inS + t) := by
  have hbps : 0 < bps := by omega
  constructor
  · rintro ⟨hdiv, h1, h2⟩
    have hdm := Nat.div_add_mod a bps
    rw [hdiv] at hdm
    have hc : sk * bps = bps * sk := Nat.mul_comm sk bps
    omega
  · rintro ⟨h1, h2⟩
    obtain ⟨e, he⟩ : ∃ e, a = sk * bps + (inS + e) ∧ e < t := by
      refine ⟨a - (sk * bps + inS), by omega, by omega⟩
    obtain ⟨ha, het⟩ := he
    rw [ha, decomp_div _ _ _ (by omega), decomp_mod _ _ _ (by omega)]
    omega

theorem dataCount_pos (L : Layout) (D : Nat) (hwf : layoutWF L D) :
    1 ≤ dataCount L D := by
  cases L
  · exact hwf
  · exact Nat.le_refl 1
  · have : 2 ≤ D := hwf
    simp only [dataCount]
    omega

theorem dataCount_le (L : Layout) (D : Nat) (hwf : layoutWF L D) :
    dataCount L D ≤ D := by
  cases L
  · exact Nat.le_refl D
  · exact hwf
  · simp only [dataCount]; omega

theorem diskOff_lt (dataN N dl q a : Nat) (hN : 1 ≤ N) (hD : 1 ≤ dataN)
    (hdl : dl = q * N) (ha : a < dataN * dl) :
    (a / (dataN * N)) * N + (a % (dataN * N)) % N < dl := by
  have hbps : 0 < dataN * N := by positivity
  have haq : a < q * (dataN * N) := by
    rw [hdl] at ha
    calc a < dataN * (q * N) := ha
    _ = q * (dataN * N) := by ring
  have hs : a / (dataN * N) < q := by
    rw [Nat.div_lt_iff_lt_mul hbps]
    exact haq
  have hb : (a % (dataN * N)) % N < N := Nat.mod_lt _ (by omega)
  have : (a / (dataN * N) + 1) * N ≤ q * N := Nat.mul_le_mul_right N (by omega)
  rw [Nat.add_mul, Nat.one_mul] at this
  omega

/-! ## Buffer and degraded-set lemmas -/

theorem length_diskReadAt (d : DiskM) (off n : Nat) : (diskReadAt d off n).length = n := by
  simp [diskReadAt]

theorem getD_diskReadAt (d : DiskM) (off n b : Nat) (hb : b < n) :
    (diskReadAt d off n).getD b 0 =
      if d.missing = false ∧ off + b < d.len then d.data (off + b) else 0 := by
  rw [diskReadAt, getD_eq_getElem_of_lt _ _ (by simp [hb]), List.getElem_map,
    List.getElem_range]

theorem length_bufOf (hasR : Bool) (N : Nat) (disks : List DiskM) (off : Nat) :
    (bufOf hasR N disks off).length = disks.length := by
  simp [bufOf]

theorem cells_bufOf (hasR : Bool) (N : Nat) (disks : List DiskM) (off : Nat) :
    ∀ c ∈ bufOf hasR N disks off, c.length = N := by
  intro c hc
  obtain ⟨d, _, hd⟩ := List.mem_map.1 hc
  rw [← hd]
  split
  · simp
  · exact length_diskReadAt d off N

theorem getD_bufOf (hasR : Bool) (N : Nat) (disks : List DiskM) (off i : Nat)
    (hi : i < disks.length) :
    (bufOf hasR N disks off).getD i [] =
      if (getDisk disks i).missing || (hasR && (getDisk disks i).needsRebuild)
      then List.replicate N 0
      else diskReadAt (getDisk disks i) off N :=
  getD_map_zero _ disks i hi

theorem degradedOf_nil (hasR : Bool) (disks : List DiskM) (dl : Nat)
    (hh : healthyDisks disks dl) : degradedOf hasR disks = [] := by
  rw [degradedOf, List.filter_eq_nil_iff]
  intro i hi
  have hilt : i < disks.length := List.mem_range.1 hi
  obtain ⟨h1, h2, _⟩ := hh (getDisk disks i)
    (by rw [getDisk, getD_eq_getElem_of_lt _ _ hilt]; exact List.getElem_mem hilt)
  simp [h1, h2]

theorem healthy_getDisk (disks : List DiskM) (dl : Nat) (hh : healthyDisks disks dl)
    (i : Nat) (hi : i < disks.length) :
    (getDisk disks i).missing = false ∧ (getDisk disks i).needsRebuild = false ∧
      (getDisk disks i).len = dl :=
  hh (getDisk disks i)
    (by rw [getDisk, getD_eq_getElem_of_lt _ _ hi]; exact List.getElem_mem hi)

theorem healthy_of_getDisk (disks : List DiskM) (dl : Nat)
    (h : ∀ j, j < disks.length → (getDisk disks j).missing = false ∧
      (getDisk disks j).needsRebuild = false ∧ (getDisk disks j).len = dl) :
    healthyDisks disks dl := by
  intro d hd
  obtain ⟨j, hj, hdj⟩ := List.mem_iff_getElem.1 hd
  have := h j hj
  rwa [getDisk, getD_eq_getElem_of_lt _ _ hj, hdj] at this

/-! ## The stripe view of healthy disks -/

theorem lbyte_decomp (L : Layout) (D N : Nat) (disks : List DiskM) (s c b : Nat)
    (hc : c < dataCount L D) (hb : b < N) :
    lbyte L D N disks (s * (dataCount L D * N) + (c * N + b)) =
      if s * N + b < (getDisk disks (dataDiskIdx L c)).len
      then (getDisk disks (dataDiskIdx L c)).data (s * N + b) else 0 := by
  have hp : c * N + b < dataCount L D * N := chunkpos_lt c b _ N hc hb
  simp only [lbyte]
  rw [decomp_div _ _ _ hp, decomp_mod _ _ _ hp, decomp_div c b N hb, decomp_mod c b N hb]

theorem getD_take {α : Type} (l : List α) (k i : Nat) (d : α) (hik : i < k) :
    (l.take k).getD i d = l.getD i d := by
  simp [List.getD_eq_getElem?_getD, List.getElem?_take, hik]

theorem take_set_of_le {α : Type} (l : List α) (k i : Nat) (x : α) (hik : k ≤ i) :
    (l.set i x).take k = l.take k := by
  apply List.ext_getElem
  · simp
  · intro n h1 h2
    rw [List.getElem_take, List.getElem_take, List.getElem_set,
      if_neg (by simp at h1; omega)]

theorem diskReadAt_eq_row (L : Layout) (D N : Nat) (disks : List DiskM) (s c : Nat)
    (hc : c < dataCount L D)
    (hmiss : (getDisk disks (dataDiskIdx L c)).missing = false) :
    diskReadAt (getDisk disks (dataDiskIdx L c)) (s * N) N =
      (List.range N).map fun b =>
        lbyte L D N disks (s * (dataCount L D * N) + (c * N + b)) := by
  apply List.ext_getElem
  · simp [length_diskReadAt]
  · intro b h1 h2
    have hb : b < N := by simpa [length_diskReadAt] using h1
    rw [← getD_eq_getElem_of_lt _ 0 h1, getD_diskReadAt _ _ _ _ hb, List.getElem_map,
      List.getElem_range, lbyte_decomp L D N disks s c b hc hb, hmiss]
    simp

theorem buf_getD_eq_read (hasR : Bool) (N dl : Nat) (disks : List DiskM) (off i : Nat)
    (hi : i < disks.length) (hh : healthyDisks disks dl) :
    (bufOf hasR N disks off).getD i [] = diskReadAt (getDisk disks i) off N := by
  obtain ⟨h1, h2, _⟩ := healthy_getDisk disks dl hh i hi
  rw [getD_bufOf hasR N disks off i hi, if_neg (by simp [h1, h2])]

theorem buf_take_eq_dchunks (L : Layout) (D N dl : Nat) (disks : List DiskM) (s : Nat)
    (hasR : Bool) (hN : 1 ≤ N) (hlen : disks.length = D) (hh : healthyDisks disks dl)
    (hDATA : dataCount L D ≤ D) (hidx : ∀ c, dataDiskIdx L c = c) :
    (bufOf hasR N disks (s * N)).take (dataCount L D) = dchunks L D N disks s := by
  apply List.ext_getElem
  · simp [length_bufOf, dchunks, hlen]
    omega
  · intro c h1 h2
    have hc : c < dataCount L D := by simpa [dchunks] using h2
    have hcd : c < disks.length := by omega
    rw [List.getElem_take, ← getD_eq_getElem_of_lt _ ([] : Cell) (by
        rw [length_bufOf]; omega),
      buf_getD_eq_read hasR N dl disks (s * N) c hcd hh]
    simp only [dchunks]
    rw [List.getElem_map, List.getElem_range]
    have := diskReadAt_eq_row L D N disks s c hc
      (by rw [hidx]; exact (healthy_getDisk disks dl hh c hcd).1)
    rw [hidx] at this
    exact this

theorem s1_eq_buf (ops : StripeOps) (N : Nat) (disks : List DiskM) (off : Nat)
    (st : List Cell) (D : Nat) (hlen : disks.length = D)
    (hwr : ops.writeRaw = fun _ data => data.take D) :
    arrayReadS1 ops N disks off st = bufOf ops.hasRestore N disks off := by
  rw [arrayReadS1, hwr]
  show (bufOf ops.hasRestore N disks off).take D = bufOf ops.hasRestore N disks off
  have hb : (bufOf ops.hasRestore N disks off).length = D := by rw [length_bufOf, hlen]
  rw [← hb]
  exact List.take_length _

/-- Loading a stripe of an all-healthy volume: the disks stay healthy and
keep every logical byte, and the decoded data view equals the per-chunk
rows of the disks' images. -/
theorem load_healthy (L : Layout) (D N dl : Nat) (v : VolumeM) (s : Nat)
    (hwf : layoutWF L D) (hN : 1 ≤ N) (hlen : v.disks.length = D)
    (hh : healthyDisks v.disks dl) :
    (loadStripe (layoutOps L D N) N v s).disks.length = D ∧
    healthyDisks (loadStripe (layoutOps L D N) N v s).disks dl ∧
    (∀ a, lbyte L D N (loadStripe (layoutOps L D N) N v s).disks a =
      lbyte L D N v.disks a) ∧
    (layoutOps L D N).read (loadStripe (layoutOps L D N) N v s).st =
      dchunks L D N v.disks s := by
  cases L with
  | raid0 =>
    have hs1 : arrayReadS1 (layoutOps .raid0 D N) N v.disks (s * N) v.st =
        bufOf (layoutOps .raid0 D N).hasRestore N v.disks (s * N) :=
      s1_eq_buf _ N v.disks (s * N) v.st D hlen rfl
    have harr : arrayRead (layoutOps .raid0 D N) N v.disks (s * N) v.st =
        (v.disks, arrayReadS1 (layoutOps .raid0 D N) N v.disks (s * N) v.st) := rfl
    refine ⟨hlen, hh, fun a => rfl, ?_⟩
    show (arrayRead (layoutOps .raid0 D N) N v.disks (s * N) v.st).2.take D = _
    rw [harr, hs1]
    have h2 : (bufOf (layoutOps .raid0 D N).hasRestore N v.disks (s * N)).take D =
        (bufOf (layoutOps .raid0 D N).hasRestore N v.disks (s * N)).take (dataCount .raid0 D) := rfl
    rw [h2, buf_take_eq_dchunks .raid0 D N dl v.disks s _ hN hlen hh
      (dataCount_le .raid0 D hwf) (fun c => rfl)]
  | raid1 =>
    have hs1 : arrayReadS1 (layoutOps .raid1 D N) N v.disks (s * N) v.st =
        bufOf (layoutOps .raid1 D N).hasRestore N v.disks (s * N) :=
      s1_eq_buf _ N v.disks (s * N) v.st D hlen rfl
    have harr : arrayRead (layoutOps .raid1 D N) N v.disks (s * N) v.st =
        (v.disks, arrayReadS1 (layoutOps .raid1 D N) N v.disks (s * N) v.st) := rfl
    refine ⟨hlen, hh, fun a => rfl, ?_⟩
    show [(arrayRead (layoutOps .raid1 D N) N v.disks (s * N) v.st).2.getD 0
      (List.replicate N 0)] = _
    rw [harr, hs1]
    have hD : 1 ≤ D := hwf
    have h0 : (bufOf (layoutOps .raid1 D N).hasRestore N v.disks (s * N)).getD 0
        (List.replicate N 0) =
        (bufOf (layoutOps .raid1 D N).hasRestore N v.disks (s * N)).getD 0 [] := by
      rw [getD_eq_getElem_of_lt _ _ (by rw [length_bufOf]; omega),
        getD_eq_getElem_of_lt _ _ (by rw [length_bufOf]; omega)]
    rw [h0, buf_getD_eq_read _ N dl v.disks (s * N) 0 (by omega) hh]
    have hrow := diskReadAt_eq_row .raid1 D N v.disks s 0 (by simp [dataCount])
      ((healthy_getDisk v.disks dl hh 0 (by omega)).1)
    have hidx : dataDiskIdx Layout.raid1 0 = 0 := rfl
    rw [hidx] at hrow
    rw [hrow]
    rfl
  | raid3 =>
    have hD : 2 ≤ D := hwf
    have hs1 : arrayReadS1 (layoutOps .raid3 D N) N v.disks (s * N) v.st =
        bufOf (layoutOps .raid3 D N).hasRestore N v.disks (s * N) :=
      s1_eq_buf _ N v.disks (s * N) v.st D hlen rfl
    have hdeg : degradedOf (layoutOps .raid3 D N).hasRestore v.disks = [] :=
      degradedOf_nil _ v.disks dl hh
    set buf := bufOf (layoutOps .raid3 D N).hasRestore N v.disks (s * N) with hbufdef
    have hrest : arrayReadRestored (layoutOps .raid3 D N)
        ⟨raid3Restore D N, raid3Scrub D N⟩ v.disks
        (arrayReadS1 (layoutOps .raid3 D N) N v.disks (s * N) v.st) =
        (buf, []) := by
      rw [arrayReadRestored, hdeg, hs1]
      split
      · rfl
      · rfl
    have hbuflen : buf.length = D := by rw [hbufdef, length_bufOf, hlen]
    have hstripe : arrayReadStripe (layoutOps .raid3 D N) N v.disks (s * N) v.st =
        (raid3Scrub D N buf).1 := by
      show (raid3Scrub D N (arrayReadRestored (layoutOps .raid3 D N)
        ⟨raid3Restore D N, raid3Scrub D N⟩ v.disks
        (arrayReadS1 (layoutOps .raid3 D N) N v.disks (s * N) v.st)).1).1 = _
      rw [hrest]
    have hrep : arrayReadRepaired (layoutOps .raid3 D N) N v.disks (s * N) v.st =
        sortDedup ([] ++ (raid3Scrub D N buf).2) := by
      show sortDedup ((arrayReadRestored (layoutOps .raid3 D N)
          ⟨raid3Restore D N, raid3Scrub D N⟩ v.disks
          (arrayReadS1 (layoutOps .raid3 D N) N v.disks (s * N) v.st)).2 ++
        (raid3Scrub D N (arrayReadRestored (layoutOps .raid3 D N)
          ⟨raid3Restore D N, raid3Scrub D N⟩ v.disks
          (arrayReadS1 (layoutOps .raid3 D N) N v.disks (s * N) v.st)).1).2) = _
      rw [hrest]
    have harr1 : (arrayRead (layoutOps .raid3 D N) N v.disks (s * N) v.st).1 =
        writeBack v.disks (s * N)
          ((arrayReadStripe (layoutOps .raid3 D N) N v.disks (s * N) v.st).take D)
          (arrayReadRepaired (layoutOps .raid3 D N) N v.disks (s * N) v.st) := rfl
    have harr2 : (arrayRead (layoutOps .raid3 D N) N v.disks (s * N) v.st).2 =
        arrayReadStripe (layoutOps .raid3 D N) N v.disks (s * N) v.st := rfl
    have hview : buf.take (D - 1) = dchunks .raid3 D N v.disks s := by
      have h2 : buf.take (D - 1) = buf.take (dataCount .raid3 D) := rfl
      rw [h2, hbufdef, buf_take_eq_dchunks .raid3 D N dl v.disks s _ hN hlen hh
        (dataCount_le .raid3 D hwf) (fun c => rfl)]
    by_cases hsc : buf.getD (D - 1) [] = xorAll (buf.take (D - 1)) N
    · have hscrub : raid3Scrub D N buf = (buf, []) := by
        rw [raid3Scrub, if_pos hsc]
    
      have hd1 : (arrayRead (layoutOps .raid3 D N) N v.disks (s * N) v.st).1 =
          v.disks := by
        rw [harr1, hstripe, hrep, hscrub]
        rfl
      have hd2 : (arrayRead (layoutOps .raid3 D N) N v.disks (s * N) v.st).2 = buf := by
        rw [harr2, hstripe, hscrub]
      refine ⟨?_, ?_, ?_, ?_⟩
      · show (arrayRead (layoutOps .raid3 D N) N v.disks (s * N) v.st).1.length = D
        rw [hd1, hlen]
      · show healthyDisks (arrayRead (layoutOps .raid3 D N) N v.disks (s * N) v.st).1 dl
        rw [hd1]
        exact hh
      · intro a
        show lbyte _ D N (arrayRead (layoutOps .raid3 D N) N v.disks (s * N) v.st).1 a = _
        rw [hd1]
      · show ((arrayRead (layoutOps .raid3 D N) N v.disks (s * N) v.st).2).take
          (D - 1) = _
        rw [hd2]
        exact hview
    · have hscrub : raid3Scrub D N buf =
          (buf.set (D - 1) (xorAll (buf.take (D - 1)) N), [D - 1]) := by
        rw [raid3Scrub, if_neg hsc]
      set st3 := buf.set (D - 1) (xorAll (buf.take (D - 1)) N) with hst3
      have hmiss : (getDisk v.disks (D - 1)).missing = false :=
        (healthy_getDisk v.disks dl hh (D - 1) (by omega)).1
      have hsd : sortDedup (([] : List Nat) ++ [D - 1]) = [D - 1] := by
        simp [sortDedup, insSorted]
      have hd1 : (arrayRead (layoutOps .raid3 D N) N v.disks (s * N) v.st).1 =
          v.disks.set (D - 1) (diskWriteAt (getDisk v.disks (D - 1)) (s * N)
            ((st3.take D).getD (D - 1) [])) := by
        rw [harr1, hstripe, hrep, hscrub]
        show writeBack v.disks (s * N) (st3.take D) (sortDedup ([] ++ [D - 1])) = _
        rw [hsd, writeBack, List.foldl_cons, List.foldl_nil,
          if_neg (by omega), if_neg (by rw [hmiss]; simp)]
      have hd2 : (arrayRead (layoutOps .raid3 D N) N v.disks (s * N) v.st).2 = st3 := by
        rw [harr2, hstripe, hscrub]
      have hnew : ∀ j, j ≠ D - 1 →
          getDisk (arrayRead (layoutOps .raid3 D N) N v.disks (s * N) v.st).1 j =
            getDisk v.disks j := by
        intro j hj
        rw [hd1, getDisk_set, if_neg (by intro h; exact hj h.1.symm)]
      have hpar : getDisk (arrayRead (layoutOps .raid3 D N) N v.disks (s * N) v.st).1
            (D - 1) =
          diskWriteAt (getDisk v.disks (D - 1)) (s * N) ((st3.take D).getD (D - 1) []) := by
        rw [hd1, getDisk_set, if_pos ⟨rfl, by omega⟩]
      refine ⟨?_, ?_, ?_, ?_⟩
      · show (arrayRead (layoutOps .raid3 D N) N v.disks (s * N) v.st).1.length = D
        rw [hd1, List.length_set, hlen]
      · show healthyDisks (arrayRead (layoutOps .raid3 D N) N v.disks (s * N) v.st).1 dl
        apply healthy_of_getDisk
        intro j hj
        have hjlen : j < v.disks.length := by
          rw [hd1] at hj
          simpa using hj
        by_cases hjp : j = D - 1
        · subst hjp
          rw [hpar]
          exact healthy_getDisk v.disks dl hh (D - 1) hjlen
        · rw [hnew j hjp]
          exact healthy_getDisk v.disks dl hh j hjlen
      · intro a
        show lbyte _ D N (arrayRead (layoutOps .raid3 D N) N v.disks (s * N) v.st).1 a = _
        have hbps : 0 < dataCount Layout.raid3 D * N := by
          have h1 : 1 ≤ dataCount Layout.raid3 D := dataCount_pos _ D hwf
          positivity
        have hc : (a % (dataCount Layout.raid3 D * N)) / N < D - 1 := by
          have h1 : a % (dataCount Layout.raid3 D * N) < dataCount Layout.raid3 D * N :=
            Nat.mod_lt a hbps
          have h2 : a % (dataCount Layout.raid3 D * N) < (D - 1) * N := h1
          exact (Nat.div_lt_iff_lt_mul (by omega)).2 h2
        simp only [lbyte]
        rw [hnew _ (by show dataDiskIdx _ _ ≠ _; simp only [dataDiskIdx]; omega)]
      · show ((arrayRead (layoutOps .raid3 D N) N v.disks (s * N) v.st).2).take
          (D - 1) = _
        rw [hd2, hst3, take_set_of_le _ _ _ _ (by omega)]
        exact hview

/-! ## Storing a stripe on healthy disks -/

theorem getD_append_left {α : Type} (l1 l2 : List α) (i : Nat) (d : α)
    (hi : i < l1.length) : (l1 ++ l2).getD i d = l1.getD i d := by
  simp [List.getD_eq_getElem?_getD, List.getElem?_append, hi]

theorem dataDiskIdx_lt (L : Layout) (D c : Nat) (hwf : layoutWF L D)
    (hc : c < dataCount L D) : dataDiskIdx L c < D := by
  cases L
  · exact hc
  · simp only [dataDiskIdx]
    exact Nat.lt_of_lt_of_le (by omega) hwf
  · simp only [dataDiskIdx]
    have := dataCount_le .raid3 D hwf
    omega

theorem length_arrayWrite (disks : List DiskM) (off : Nat) (cells : List Cell)
    (hlen : cells.length = disks.length) :
    (arrayWrite disks off cells).length = disks.length := by
  rw [arrayWrite, List.length_map, List.length_zip, hlen]
  omega

theorem take_full {α : Type} (l : List α) (k : Nat) (hk : l.length = k) :
    l.take k = l := by
  rw [← hk]
  exact List.take_length _

theorem readRaw_write_eq (L : Layout) (D N : Nat) (st chunks2 : List Cell)
    (hwf : layoutWF L D) (hch : chunks2.length = dataCount L D) :
    ((layoutOps L D N).readRaw ((layoutOps L D N).write st chunks2)).length = D ∧
    ∀ c, c < dataCount L D →
      ((layoutOps L D N).readRaw ((layoutOps L D N).write st chunks2)).getD
        (dataDiskIdx L c) [] = chunks2.getD c [] := by
  cases L with
  | raid0 =>
    have hD : 1 ≤ D := hwf
    have hc2 : chunks2.length = D := hch
    have hra : (layoutOps .raid0 D N).readRaw ((layoutOps .raid0 D N).write st chunks2) =
        chunks2 := by
      show (chunks2.take D).take D = chunks2
      rw [List.take_take, Nat.min_self, take_full chunks2 D hc2]
    rw [hra]
    exact ⟨hc2, fun c hc => rfl⟩
  | raid1 =>
    have hD : 1 ≤ D := hwf
    have hc2 : chunks2.length = 1 := hch
    have hra : (layoutOps .raid1 D N).readRaw ((layoutOps .raid1 D N).write st chunks2) =
        List.replicate D (chunks2.getD 0 (List.replicate N 0)) := by
      show (List.replicate D (chunks2.getD 0 (List.replicate N 0))).take D = _
      exact take_full _ D (List.length_replicate D _)
    rw [hra]
    constructor
    · exact List.length_replicate D _
    · intro c hc
      have hc0 : c = 0 := by
        have : c < 1 := hc
        omega
      subst hc0
      show (List.replicate D (chunks2.getD 0 (List.replicate N 0))).getD 0 [] = _
      rw [getD_eq_getElem_of_lt _ _ (by rw [List.length_replicate]; omega),
        List.getElem_replicate,
        getD_eq_getElem_of_lt _ _ (by omega : (0 : Nat) < chunks2.length),
        getD_eq_getElem_of_lt _ _ (by omega : (0 : Nat) < chunks2.length)]
  | raid3 =>
    have hD : 2 ≤ D := hwf
    have hc2 : chunks2.length = D - 1 := hch
    have h1 : chunks2.take (D - 1) = chunks2 := take_full chunks2 (D - 1) hc2
    have hra : (layoutOps .raid3 D N).readRaw ((layoutOps .raid3 D N).write st chunks2) =
        (chunks2 ++ [xorAll chunks2 N]).take D := by
      show (raid3WriteParity D N (chunks2.take (D - 1) ++ st.drop (D - 1))).take D = _
      rw [raid3WriteParity, h1]
      have h2 : (chunks2 ++ st.drop (D - 1)).take (D - 1) = chunks2 := by
        rw [← hc2]
        exact List.take_left chunks2 _
      rw [h2]
    rw [hra]
    have hlap : (chunks2 ++ [xorAll chunks2 N]).length = D := by
      rw [List.length_append, hc2]
      simp
      omega
    rw [take_full _ D hlap]
    refine ⟨hlap, fun c hc => ?_⟩
    show (chunks2 ++ [xorAll chunks2 N]).getD c [] = _
    exact getD_append_left chunks2 _ c [] (by rw [hc2]; exact hc)

theorem arrayWrite_lbyte (L : Layout) (D N dl : Nat) (disks : List DiskM)
    (cells chunks2 : List Cell) (s : Nat)
    (hwf : layoutWF L D) (hN : 1 ≤ N) (hlen : disks.length = D)
    (hh : healthyDisks disks dl)
    (hch : chunks2.length = dataCount L D) (hcl : ∀ c ∈ chunks2, c.length = N)
    (hlenc : cells.length = D)
    (hdata : ∀ c, c < dataCount L D →
      cells.getD (dataDiskIdx L c) [] = chunks2.getD c []) :
    (arrayWrite disks (s * N) cells).length = D ∧
    healthyDisks (arrayWrite disks (s * N) cells) dl ∧
    ∀ a, lbyte L D N (arrayWrite disks (s * N) cells) a =
      if a / (dataCount L D * N) = s ∧ s * N + (a % (dataCount L D * N)) % N < dl
      then getChunkByte N chunks2 (a % (dataCount L D * N))
      else lbyte L D N disks a := by
  have hlenc2 : cells.length = disks.length := by omega
  have hDATA : 1 ≤ dataCount L D := dataCount_pos L D hwf
  have hbps : 0 < dataCount L D * N := by positivity
  refine ⟨by rw [length_arrayWrite disks _ cells hlenc2, hlen], ?_, ?_⟩
  · apply healthy_of_getDisk
    intro j hj
    have hjd : j < disks.length := by
      rw [length_arrayWrite disks _ cells hlenc2] at hj
      exact hj
    obtain ⟨g1, g2, g3⟩ := healthy_getDisk disks dl hh j hjd
    rw [getDisk_arrayWrite disks _ cells j hjd hlenc2, if_neg (by simp [g1])]
    split
    · exact ⟨by simp [diskWriteAt, g1], rfl, by simp [diskWriteAt, g3]⟩
    · exact ⟨by simp [diskWriteAt, g1], by simp [diskWriteAt, g2],
        by simp [diskWriteAt, g3]⟩
  · intro a
    set bps := dataCount L D * N with hbpsdef
    have hmod : a % bps < bps := Nat.mod_lt a hbps
    set c := (a % bps) / N with hcdef
    set b := (a % bps) % N with hbdef
    have hb : b < N := Nat.mod_lt _ (by omega)
    have hc : c < dataCount L D := by
      rw [hcdef]
      exact (Nat.div_lt_iff_lt_mul (by omega)).2 hmod
    set j := dataDiskIdx L c with hjdef
    have hj : j < D := dataDiskIdx_lt L D c hwf hc
    have hjd : j < disks.length := by omega
    obtain ⟨g1, g2, g3⟩ := healthy_getDisk disks dl hh j hjd
    have hcell : cells.getD j [] = chunks2.getD c [] := hdata c hc
    have hcelllen : (cells.getD j []).length = N := by
      rw [hcell]
      exact hcl _ (by
        rw [getD_eq_getElem_of_lt _ _ (by omega : c < chunks2.length)]
        exact List.getElem_mem (by omega))
    have hAW := getDisk_arrayWrite disks (s * N) cells j hjd hlenc2
    rw [if_neg (by simp [g1])] at hAW
    have hwc : diskWriteCount (getDisk disks j) (s * N) (cells.getD j []).length =
        if dl ≤ s * N then 0 else min N (dl - s * N) := by
      rw [hcelllen, diskWriteCount, g1, g3]
      simp
    have hlennew : (getDisk (arrayWrite disks (s * N) cells) j).len = dl := by
      rw [hAW]
      split
      · simp [diskWriteAt, g3]
      · simp [diskWriteAt, g3]
    have hLHS : lbyte L D N (arrayWrite disks (s * N) cells) a =
        (if (a / bps) * N + b < (getDisk (arrayWrite disks (s * N) cells) j).len
         then (getDisk (arrayWrite disks (s * N) cells) j).data ((a / bps) * N + b)
         else 0) := rfl
    have hRHS : lbyte L D N disks a =
        (if (a / bps) * N + b < (getDisk disks j).len
         then (getDisk disks j).data ((a / bps) * N + b) else 0) := rfl
    have hGC : getChunkByte N chunks2 (a % bps) = (chunks2.getD c []).getD b 0 := rfl
    rw [hLHS, hRHS, hGC]
    by_cases hs : a / bps = s
    · rw [hs]
      by_cases hin : s * N + b < dl
      · have hkval : diskWriteCount (getDisk disks j) (s * N)
            (cells.getD j []).length = min N (dl - s * N) := by
          rw [hwc, if_neg (by omega)]
        have hdataeq : (getDisk (arrayWrite disks (s * N) cells) j).data (s * N + b) =
            (cells.getD j []).getD b 0 := by
          rw [hAW]
          split
          · simp only [diskWriteAt]
            rw [hkval, if_pos (by omega)]
            congr 1
            omega
          · simp only [diskWriteAt]
            rw [hkval, if_pos (by omega)]
            congr 1
            omega
        rw [if_pos (show s = s ∧ s * N + b < dl from ⟨rfl, hin⟩), hlennew,
          if_pos hin, hdataeq, hcell]
      · rw [if_neg (show ¬(s = s ∧ s * N + b < dl) from fun h => hin h.2), hlennew,
          if_neg hin, g3, if_neg hin]
    · rw [if_neg (show ¬(a / bps = s ∧ s * N + b < dl) from fun h => hs h.1)]
      have hout : (a / bps) * N + b < s * N ∨ s * N + N ≤ (a / bps) * N + b :=
        stripe_window_disjoint s (a / bps) b N hb hs
      have hkN : diskWriteCount (getDisk disks j) (s * N) (cells.getD j []).length ≤ N := by
        rw [hwc]
        split
        · omega
        · omega
      have hdataeq : (getDisk (arrayWrite disks (s * N) cells) j).data
            ((a / bps) * N + b) = (getDisk disks j).data ((a / bps) * N + b) := by
        rw [hAW]
        split
        · simp only [diskWriteAt]
          rw [if_neg (by omega)]
        · simp only [diskWriteAt]
          rw [if_neg (by omega)]
      rw [hlennew, g3, hdataeq]

theorem store_healthy (L : Layout) (D N dl : Nat) (disks : List DiskM)
    (st chunks2 : List Cell) (s : Nat)
    (hwf : layoutWF L D) (hN : 1 ≤ N) (hlen : disks.length = D)
    (hh : healthyDisks disks dl)
    (hch : chunks2.length = dataCount L D) (hcl : ∀ c ∈ chunks2, c.length = N) :
    (arrayWrite disks (s * N)
      ((layoutOps L D N).readRaw ((layoutOps L D N).write st chunks2))).length = D ∧
    healthyDisks (arrayWrite disks (s * N)
      ((layoutOps L D N).readRaw ((layoutOps L D N).write st chunks2))) dl ∧
    ∀ a, lbyte L D N (arrayWrite disks (s * N)
        ((layoutOps L D N).readRaw ((layoutOps L D N).write st chunks2))) a =
      if a / (dataCount L D * N) = s ∧ s * N + (a % (dataCount L D * N)) % N < dl
      then getChunkByte N chunks2 (a % (dataCount L D * N))
      else lbyte L D N disks a := by
  obtain ⟨hlenc, hdata⟩ := readRaw_write_eq L D N st chunks2 hwf hch
  exact arrayWrite_lbyte L D N dl disks _ chunks2 s hwf hN hlen hh hch hcl hlenc hdata

/-! ## Chunk-view lemmas -/

theorem length_dchunks (L : Layout) (D N : Nat) (disks : List DiskM) (s : Nat) :
    (dchunks L D N disks s).length = dataCount L D := by
  simp [dchunks]

theorem cells_dchunks (L : Layout) (D N : Nat) (disks : List DiskM) (s : Nat) :
    ∀ c ∈ dchunks L D N disks s, c.length = N := by
  intro c hc
  obtain ⟨i, _, hi⟩ := List.mem_map.1 hc
  rw [← hi]
  simp

theorem getD_range_map (K : Nat) (f : Nat → Cell) (q : Nat) (hq : q < K) :
    ((List.range K).map f).getD q [] = f q := by
  rw [getD_eq_getElem_of_lt _ _ (by simpa using hq), List.getElem_map, List.getElem_range]

theorem getD_range_map_nat (K : Nat) (f : Nat → Nat) (q : Nat) (hq : q < K) :
    ((List.range K).map f).getD q 0 = f q := by
  rw [getD_eq_getElem_of_lt _ _ (by simpa using hq), List.getElem_map, List.getElem_range]

theorem getChunkByte_dchunks (L : Layout) (D N : Nat) (disks : List DiskM) (s pos : Nat)
    (hN : 1 ≤ N) (hpos : pos < dataCount L D * N) :
    getChunkByte N (dchunks L D N disks s) pos =
      lbyte L D N disks (s * (dataCount L D * N) + pos) := by
  have hq : pos / N < dataCount L D := (Nat.div_lt_iff_lt_mul (by omega)).2 hpos
  have hr : pos % N < N := Nat.mod_lt _ (by omega)
  rw [getChunkByte, dchunks, getD_range_map _ _ _ hq, getD_range_map_nat _ _ _ hr]
  congr 1
  have h1 := Nat.div_add_mod pos N
  have h2 : (pos / N) * N = N * (pos / N) := Nat.mul_comm _ _
  omega

theorem getChunkByte_setChunkByte (N DATA : Nat) (chunks : List Cell) (pos2 pos : Nat)
    (x : Nat) (hch : chunks.length = DATA) (hcl : ∀ c ∈ chunks, c.length = N)
    (hN : 1 ≤ N) (hpos2 : pos2 < DATA * N) (hpos : pos < DATA * N) :
    getChunkByte N (setChunkByte N chunks pos2 x) pos =
      if pos2 = pos then x else getChunkByte N chunks pos := by
  have hq2 : pos2 / N < DATA := (Nat.div_lt_iff_lt_mul (by omega)).2 hpos2
  have hq : pos / N < DATA := (Nat.div_lt_iff_lt_mul (by omega)).2 hpos
  have hr2 : pos2 % N < N := Nat.mod_lt _ (by omega)
  have hr : pos % N < N := Nat.mod_lt _ (by omega)
  have hcelllen : (chunks.getD (pos2 / N) []).length = N := by
    apply hcl
    rw [getD_eq_getElem_of_lt _ _ (by omega : pos2 / N < chunks.length)]
    exact List.getElem_mem (by omega)
  rw [getChunkByte, setChunkByte, getD_set]
  by_cases hqq : pos2 / N = pos / N
  · rw [if_pos ⟨hqq, by omega⟩, getD_set]
    by_cases hrr : pos2 % N = pos % N
    · have hpp : pos2 = pos := by
        have h1 := Nat.div_add_mod pos2 N
        have h2 := Nat.div_add_mod pos N
        have h3 : N * (pos2 / N) = N * (pos / N) := by rw [hqq]
        omega
      rw [if_pos ⟨hrr, by omega⟩, if_pos hpp]
    · have hpp : pos2 ≠ pos := by
        intro h
        exact hrr (by rw [h])
      rw [if_neg (by tauto), if_neg hpp, getChunkByte, hqq]
  · have hpp : pos2 ≠ pos := by
      intro h
      exact hqq (by rw [h])
    rw [if_neg (by tauto), if_neg hpp, getChunkByte]

theorem length_setChunkByte (N : Nat) (chunks : List Cell) (pos x : Nat) :
    (setChunkByte N chunks pos x).length = chunks.length := by
  simp [setChunkByte]

theorem cells_setChunkByte (N : Nat) (chunks : List Cell) (pos x : Nat)
    (hcl : ∀ c ∈ chunks, c.length = N) :
    ∀ c ∈ setChunkByte N chunks pos x, c.length = N := by
  intro c hc
  rw [setChunkByte] at hc
  by_cases hq : pos / N < chunks.length
  · rcases List.mem_or_eq_of_mem_set hc with h | h
    · exact hcl c h
    · rw [h, List.length_set]
      apply hcl
      rw [getD_eq_getElem_of_lt _ _ hq]
      exact List.getElem_mem hq
  · rw [List.set_eq_of_length_le (by omega)] at hc
    exact hcl c hc

theorem updSeg_succ (N : Nat) (chunks : List Cell) (inS t : Nat) (payload : List Nat)
    (w : Nat) :
    updSeg N chunks inS (t + 1) payload w =
      setChunkByte N (updSeg N chunks inS t payload w) (inS + t)
        (payload.getD (w + t) 0) := by
  rw [updSeg, updSeg, List.range_succ, List.foldl_append, List.foldl_cons, List.foldl_nil]

theorem length_updSeg (N : Nat) (chunks : List Cell) (inS t : Nat) (payload : List Nat)
    (w : Nat) : (updSeg N chunks inS t payload w).length = chunks.length := by
  induction t with
  | zero => rfl
  | succ t ih => rw [updSeg_succ, length_setChunkByte, ih]

theorem cells_updSeg (N : Nat) (chunks : List Cell) (inS t : Nat) (payload : List Nat)
    (w : Nat) (hcl : ∀ c ∈ chunks, c.length = N) :
    ∀ c ∈ updSeg N chunks inS t payload w, c.length = N := by
  induction t with
  | zero => exact hcl
  | succ t ih =>
    rw [updSeg_succ]
    exact cells_setChunkByte N _ _ _ ih

theorem getChunkByte_updSeg (N DATA : Nat) (chunks : List Cell) (inS t : Nat)
    (payload : List Nat) (w : Nat) (hch : chunks.length = DATA)
    (hcl : ∀ c ∈ chunks, c.length = N) (hN : 1 ≤ N) (hbound : inS + t ≤ DATA * N) :
    ∀ pos, pos < DATA * N →
      getChunkByte N (updSeg N chunks inS t payload w) pos =
        if inS ≤ pos ∧ pos < inS + t then payload.getD (w + (pos - inS)) 0
        else getChunkByte N chunks pos := by
  induction t with
  | zero =>
    intro pos hpos
    rw [if_neg (by omega)]
    rfl
  | succ t ih =>
    intro pos hpos
    rw [updSeg_succ,
      getChunkByte_setChunkByte N DATA _ (inS + t) pos _
        (by rw [length_updSeg, hch]) (cells_updSeg N chunks inS t payload w hcl)
        hN (by omega) hpos,
      ih (by omega) pos hpos]
    by_cases h1 : inS + t = pos
    · rw [if_pos h1, if_pos (by omega)]
      congr 1
      omega
    · rw [if_neg h1]
      by_cases h2 : inS ≤ pos ∧ pos < inS + t
      · rw [if_pos h2, if_pos (by omega)]
      · rw [if_neg h2, if_neg (by omega)]

theorem foldl_set_getD (t : Nat) (out : List Nat) (base : Nat) (f : Nat → Nat) :
    ((List.range t).foldl (fun o i => o.set (base + i) (f i)) out).length = out.length ∧
    ∀ p, ((List.range t).foldl (fun o i => o.set (base + i) (f i)) out).getD p 0 =
      if base ≤ p ∧ p < base + t ∧ p < out.length then f (p - base)
      else out.getD p 0 := by
  induction t with
  | zero =>
    refine ⟨rfl, fun p => ?_⟩
    rw [if_neg (by omega)]
    rfl
  | succ t ih =>
    obtain ⟨ih1, ih2⟩ := ih
    have hstep : (List.range (t + 1)).foldl (fun o i => o.set (base + i) (f i)) out =
        ((List.range t).foldl (fun o i => o.set (base + i) (f i)) out).set (base + t)
          (f t) := by
      rw [List.range_succ, List.foldl_append, List.foldl_cons, List.foldl_nil]
    rw [hstep]
    refine ⟨by rw [List.length_set, ih1], fun p => ?_⟩
    rw [getD_set, ih1, ih2 p]
    by_cases h1 : base + t = p
    · subst h1
      by_cases h2 : base + t < out.length
      · rw [if_pos ⟨rfl, h2⟩, if_pos (by omega)]
        congr 1
        omega
      · rw [if_neg (by omega), if_neg (by omega), if_neg (by omega)]
    · rw [if_neg (by tauto)]
      by_cases h2 : base ≤ p ∧ p < base + t ∧ p < out.length
      · rw [if_pos h2, if_pos (by omega)]
      · rw [if_neg h2, if_neg (by omega)]

/-! ## The read loop on healthy disks -/

theorem layoutOps_dataN (L : Layout) (D N : Nat) :
    (layoutOps L D N).dataN = dataCount L D := by
  cases L <;> rfl

theorem readLoop_step (ops : StripeOps) (N byteOff fuel : Nat) (v : VolumeM)
    (out : List Nat) (readC : Nat) (hlt : readC < out.length) :
    readLoop ops N byteOff (fuel + 1) v out readC =
      readLoop ops N byteOff fuel
        (loadStripe ops N v ((byteOff + readC) / (ops.dataN * N)))
        ((List.range (min (ops.dataN * N - (byteOff + readC) % (ops.dataN * N))
            (out.length - readC))).foldl
          (fun o i => o.set (readC + i)
            (getChunkByte N (ops.read (loadStripe ops N v
              ((byteOff + readC) / (ops.dataN * N))).st)
              ((byteOff + readC) % (ops.dataN * N) + i))) out)
        (readC + min (ops.dataN * N - (byteOff + readC) % (ops.dataN * N))
          (out.length - readC)) := by
  rw [readLoop, if_pos hlt]

theorem readLoop_stop (ops : StripeOps) (N byteOff fuel : Nat) (v : VolumeM)
    (out : List Nat) (readC : Nat) (hlt : ¬ readC < out.length) :
    readLoop ops N byteOff (fuel + 1) v out readC = (out, v) := by
  rw [readLoop, if_neg hlt]

theorem readLoop_healthy (L : Layout) (D N dl byteOff : Nat) :
    ∀ (fuel : Nat) (v : VolumeM) (out : List Nat) (readC : Nat),
    layoutWF L D → 1 ≤ N → v.disks.length = D → healthyDisks v.disks dl →
    out.length - readC ≤ fuel →
    ((readLoop (layoutOps L D N) N byteOff fuel v out readC).1.length = out.length ∧
     (∀ p, p < readC →
       (readLoop (layoutOps L D N) N byteOff fuel v out readC).1.getD p 0 =
         out.getD p 0) ∧
     (∀ p, readC ≤ p → p < out.length →
       (readLoop (layoutOps L D N) N byteOff fuel v out readC).1.getD p 0 =
         lbyte L D N v.disks (byteOff + p)) ∧
     (readLoop (layoutOps L D N) N byteOff fuel v out readC).2.disks.length = D ∧
     healthyDisks (readLoop (layoutOps L D N) N byteOff fuel v out readC).2.disks dl ∧
     (∀ a, lbyte L D N
         (readLoop (layoutOps L D N) N byteOff fuel v out readC).2.disks a =
       lbyte L D N v.disks a)) := by
  intro fuel
  induction fuel with
  | zero =>
    intro v out readC hwf hN hlen hh hfuel
    exact ⟨rfl, fun p hp => rfl, fun p hp1 hp2 => absurd hp2 (by omega),
      hlen, hh, fun a => rfl⟩
  | succ fuel ih =>
    intro v out readC hwf hN hlen hh hfuel
    by_cases hlt : readC < out.length
    · have hdN : (layoutOps L D N).dataN = dataCount L D := layoutOps_dataN L D N
      have hDATA : 1 ≤ dataCount L D := dataCount_pos L D hwf
      have hbpspos : 0 < (layoutOps L D N).dataN * N := by
        rw [hdN]
        positivity
      set bps := (layoutOps L D N).dataN * N with hbpsdef
      set sk := (byteOff + readC) / bps with hskdef
      set inS := (byteOff + readC) % bps with hinSdef
      set tk := min (bps - inS) (out.length - readC) with htkdef
      have hinS : inS < bps := Nat.mod_lt _ hbpspos
      have htk1 : 1 ≤ tk := by
        rw [htkdef]
        omega
      have htk2 : inS + tk ≤ bps := by
        rw [htkdef]
        omega
      have htk3 : readC + tk ≤ out.length := by
        rw [htkdef]
        omega
      obtain ⟨l1, l2, l3, l4⟩ := load_healthy L D N dl v sk hwf hN hlen hh
      rw [readLoop_step _ _ _ _ _ _ _ hlt]
      set v1 := loadStripe (layoutOps L D N) N v sk with hv1def
      set f := fun i => getChunkByte N ((layoutOps L D N).read v1.st) (inS + i)
        with hfdef
      obtain ⟨o1, o2⟩ := foldl_set_getD tk out readC f
      set out2 := (List.range tk).foldl (fun o i => o.set (readC + i) (f i)) out
        with hout2def
      have hfval : ∀ i, i < tk → f i = lbyte L D N v.disks (byteOff + (readC + i)) := by
        intro i hi
        rw [hfdef]
        show getChunkByte N ((layoutOps L D N).read v1.st) (inS + i) = _
        rw [l4, getChunkByte_dchunks L D N v.disks sk (inS + i) hN
          (by rw [← hdN, ← hbpsdef]; omega)]
        congr 1
        have hdm := Nat.div_add_mod (byteOff + readC) bps
        rw [← hskdef, ← hinSdef] at hdm
        have hmc : sk * (dataCount L D * N) = bps * sk := by
          rw [hbpsdef, hdN, Nat.mul_comm]
        omega
      obtain ⟨r1, r2, r3, r4, r5, r6⟩ := ih v1 out2 (readC + tk) hwf hN
        (by rw [hv1def]; exact l1) (by rw [hv1def]; exact l2)
        (by rw [hout2def, o1]; omega)
      refine ⟨by rw [r1, o1], ?_, ?_, r4, r5, ?_⟩
      · intro p hp
        rw [r2 p (by omega), o2 p, if_neg (by omega)]
      · intro p hp1 hp2
        by_cases hpin : p < readC + tk
        · rw [r2 p hpin, o2 p, if_pos ⟨hp1, by omega, hp2⟩,
            hfval (p - readC) (by omega)]
          congr 1
          omega
        · rw [r3 p (by omega) (by rw [o1]; exact hp2), l3]
      · intro a
        rw [r6 a, l3]
    · rw [readLoop_stop _ _ _ _ _ _ _ hlt]
      exact ⟨rfl, fun p hp => rfl, fun p hp1 hp2 => absurd hp2 (by omega),
        hlen, hh, fun a => rfl⟩

/-! ## The write loop on healthy disks -/

theorem writeLoop_step (ops : StripeOps) (N : Nat) (payload : List Nat)
    (byteOff fuel : Nat) (v : VolumeM) (written : Nat)
    (hlt : written < payload.length) :
    writeLoop ops N payload byteOff (fuel + 1) v written =
      writeLoop ops N payload byteOff fuel
        (storeStripe ops N
          ⟨(loadStripe ops N v ((byteOff + written) / (ops.dataN * N))).disks,
           ops.write
             (loadStripe ops N v ((byteOff + written) / (ops.dataN * N))).st
             (updSeg N
               (ops.read (loadStripe ops N v
                 ((byteOff + written) / (ops.dataN * N))).st)
               ((byteOff + written) % (ops.dataN * N))
               (min (ops.dataN * N - (byteOff + written) % (ops.dataN * N))
                 (payload.length - written))
               payload written)⟩
          ((byteOff + written) / (ops.dataN * N)))
        (written + min (ops.dataN * N - (byteOff + written) % (ops.dataN * N))
          (payload.length - written)) := by
  rw [writeLoop, if_pos hlt]

theorem writeLoop_stop (ops : StripeOps) (N : Nat) (payload : List Nat)
    (byteOff fuel : Nat) (v : VolumeM) (written : Nat)
    (hlt : ¬ written < payload.length) :
    writeLoop ops N payload byteOff (fuel + 1) v written = v := by
  rw [writeLoop, if_neg hlt]

theorem writeLoop_healthy (L : Layout) (D N dl byteOff : Nat) (payload : List Nat) :
    ∀ (fuel : Nat) (v : VolumeM) (written : Nat),
    layoutWF L D → 1 ≤ N → v.disks.length = D → healthyDisks v.disks dl →
    payload.length - written ≤ fuel →
    ((writeLoop (layoutOps L D N) N payload byteOff fuel v written).disks.length = D ∧
     healthyDisks
       (writeLoop (layoutOps L D N) N payload byteOff fuel v written).disks dl ∧
     ∀ a, lbyte L D N
         (writeLoop (layoutOps L D N) N payload byteOff fuel v written).disks a =
       if byteOff + written ≤ a ∧ a < byteOff + payload.length ∧
          diskOffOf (dataCount L D * N) N a < dl
       then payload.getD (a - byteOff) 0
       else lbyte L D N v.disks a) := by
  intro fuel
  induction fuel with
  | zero =>
    intro v written hwf hN hlen hh hfuel
    refine ⟨hlen, hh, fun a => ?_⟩
    rw [if_neg (by omega)]
    rfl
  | succ fuel ih =>
    intro v written hwf hN hlen hh hfuel
    by_cases hlt : written < payload.length
    · have hdN : (layoutOps L D N).dataN = dataCount L D := layoutOps_dataN L D N
      have hDATA : 1 ≤ dataCount L D := dataCount_pos L D hwf
      have hbpspos : 0 < (layoutOps L D N).dataN * N := by
        rw [hdN]
        positivity
      set bps := (layoutOps L D N).dataN * N with hbpsdef
      have hbps2 : dataCount L D * N = bps := by rw [hbpsdef, hdN]
      set sk := (byteOff + written) / bps with hskdef
      set inS := (byteOff + written) % bps with hinSdef
      set tk := min (bps - inS) (payload.length - written) with htkdef
      have hinS : inS < bps := Nat.mod_lt _ hbpspos
      have htk1 : 1 ≤ tk := by
        rw [htkdef]
        omega
      have htk2 : inS + tk ≤ bps := by
        rw [htkdef]
        omega
      have htk3 : written + tk ≤ payload.length := by
        rw [htkdef]
        omega
      have hdm := Nat.div_add_mod (byteOff + written) bps
      rw [← hskdef, ← hinSdef] at hdm
      have hmc : sk * bps = bps * sk := Nat.mul_comm sk bps
      obtain ⟨l1, l2, l3, l4⟩ := load_healthy L D N dl v sk hwf hN hlen hh
      rw [writeLoop_step _ _ _ _ _ _ _ hlt]
      set v1 := loadStripe (layoutOps L D N) N v sk with hv1def
      set chunks2 := updSeg N ((layoutOps L D N).read v1.st) inS tk payload written
        with hch2def
      have hch2len : chunks2.length = dataCount L D := by
        rw [hch2def, length_updSeg, l4, length_dchunks]
      have hch2cells : ∀ c ∈ chunks2, c.length = N := by
        rw [hch2def, l4]
        exact cells_updSeg N _ inS tk payload written (cells_dchunks L D N v.disks sk)
      have hv2eq : (storeStripe (layoutOps L D N) N
          ⟨v1.disks, (layoutOps L D N).write v1.st chunks2⟩ sk).disks =
          arrayWrite v1.disks (sk * N)
            ((layoutOps L D N).readRaw ((layoutOps L D N).write v1.st chunks2)) := rfl
      obtain ⟨s1, s2, s3⟩ := store_healthy L D N dl v1.disks v1.st chunks2 sk hwf hN
        l1 l2 hch2len hch2cells
      set v2 := storeStripe (layoutOps L D N) N
        ⟨v1.disks, (layoutOps L D N).write v1.st chunks2⟩ sk with hv2def
      have hs1 : v2.disks.length = D := by rw [hv2def, hv2eq]; exact s1
      have hs2 : healthyDisks v2.disks dl := by rw [hv2def, hv2eq]; exact s2
      have hstep : ∀ a, lbyte L D N v2.disks a =
          if byteOff + written ≤ a ∧ a < byteOff + written + tk ∧
             diskOffOf (dataCount L D * N) N a < dl
          then payload.getD (a - byteOff) 0
          else lbyte L D N v.disks a := by
        intro a
        have hv2l : lbyte L D N v2.disks a =
            if a / (dataCount L D * N) = sk ∧
               sk * N + (a % (dataCount L D * N)) % N < dl
            then getChunkByte N chunks2 (a % (dataCount L D * N))
            else lbyte L D N v1.disks a := by
          rw [hv2def, hv2eq]
          exact s3 a
        rw [hv2l]
        have hiff := stripe_pos_iff bps sk inS tk a hinS htk2
        have hoffeq : diskOffOf (dataCount L D * N) N a =
            (a / bps) * N + (a % bps) % N := by
          rw [diskOffOf, hbps2]
        by_cases hdiv : a / bps = sk
        · have haeq : a = bps * sk + a % bps := by
            have := Nat.div_add_mod a bps
            rw [hdiv] at this
            omega
          by_cases hdl2 : sk * N + (a % bps) % N < dl
          · rw [if_pos (by rw [hbps2]; exact ⟨hdiv, hdl2⟩)]
            have hupd := getChunkByte_updSeg N (dataCount L D)
              ((layoutOps L D N).read v1.st) inS tk payload written
              (by rw [l4, length_dchunks]) (by rw [l4]; exact cells_dchunks L D N v.disks sk)
              hN (by rw [hbps2]; exact htk2) (a % (dataCount L D * N))
              (by rw [hbps2]; exact Nat.mod_lt _ hbpspos)
            rw [← hch2def] at hupd
            rw [hupd]
            by_cases hin2 : inS ≤ a % (dataCount L D * N) ∧
                a % (dataCount L D * N) < inS + tk
            · rw [if_pos hin2]
              have hin3 : inS ≤ a % bps ∧ a % bps < inS + tk := by
                rw [← hbps2]
                exact hin2
              have hrange := hiff.1 ⟨hdiv, hin3.1, hin3.2⟩
              rw [if_pos ⟨by omega, by omega, by rw [hoffeq, hdiv]; exact hdl2⟩]
              congr 1
              have hmod2 : a % (dataCount L D * N) = a % bps := by rw [hbps2]
              omega
            · rw [if_neg hin2, l4,
                getChunkByte_dchunks L D N v.disks sk (a % (dataCount L D * N)) hN
                  (Nat.mod_lt _ (by rw [hbps2]; omega))]
              have hnotrange : ¬(byteOff + written ≤ a ∧ a < byteOff + written + tk ∧
                  diskOffOf (dataCount L D * N) N a < dl) := by
                rintro ⟨hr1, hr2, _⟩
                have := hiff.2 ⟨by omega, by omega⟩
                rw [hbps2] at hin2
                exact hin2 ⟨this.2.1, this.2.2⟩
              rw [if_neg hnotrange]
              congr 1
              have hmod2 : a % (dataCount L D * N) = a % bps := by rw [hbps2]
              have hsk2 : sk * (dataCount L D * N) = bps * sk := by
                rw [hbps2]
                exact hmc
              omega
          · rw [if_neg (by rw [hbps2]; tauto), l3]
            have hnotrange : ¬(byteOff + written ≤ a ∧ a < byteOff + written + tk ∧
                diskOffOf (dataCount L D * N) N a < dl) := by
              rintro ⟨_, _, hr3⟩
              rw [hoffeq, hdiv] at hr3
              exact hdl2 hr3
            rw [if_neg hnotrange]
        · rw [if_neg (by rw [hbps2]; tauto), l3]
          have hnotrange : ¬(byteOff + written ≤ a ∧ a < byteOff + written + tk ∧
              diskOffOf (dataCount L D * N) N a < dl) := by
            rintro ⟨hr1, hr2, _⟩
            exact hdiv (hiff.2 ⟨by omega, by omega⟩).1
          rw [if_neg hnotrange]
      obtain ⟨r1, r2, r3⟩ := ih v2 (written + tk) hwf hN hs1 hs2 (by omega)
      refine ⟨r1, r2, fun a => ?_⟩
      rw [r3 a, hstep a]
      set dOff := diskOffOf (dataCount L D * N) N a with hdoffdef
      by_cases c3 : dOff < dl
      · by_cases c1 : byteOff + written ≤ a
        · by_cases c2 : a < byteOff + payload.length
          · by_cases c4 : a < byteOff + written + tk
            · rw [if_neg (by omega), if_pos ⟨by omega, by omega, c3⟩,
                if_pos ⟨c1, c2, c3⟩]
            · rw [if_pos ⟨by omega, c2, c3⟩, if_pos ⟨c1, c2, c3⟩]
          · rw [if_neg (by omega), if_neg (by omega), if_neg (by omega)]
        · rw [if_neg (by omega), if_neg (by omega), if_neg (by omega)]
      · rw [if_neg (by omega), if_neg (by omega), if_neg (by omega)]
    · rw [writeLoop_stop _ _ _ _ _ _ _ hlt]
      refine ⟨hlen, hh, fun a => ?_⟩
      rw [if_neg (by omega)]

theorem healthy_nil (dl : Nat) : healthyDisks [] dl := by
  intro d hd
  exact absurd hd (List.not_mem_nil d)

theorem healthy_cons (d : DiskM) (rest : List DiskM) (dl : Nat)
    (h1 : d.missing = false ∧ d.needsRebuild = false ∧ d.len = dl)
    (h2 : healthyDisks rest dl) : healthyDisks (d :: rest) dl := by
  intro x hx
  rcases List.mem_cons.1 hx with rfl | hx2
  · exact h1
  · exact h2 x hx2

/-! ## C1: write/read roundtrip -/

/-- C1 (amended): on a volume whose disks are all operational and
trusted, and whose disk length is a multiple of the chunk width `N`,
writing a payload at any offset with the range inside the logical
capacity and reading the same range back returns exactly the payload,
for each of the three layouts. -/
theorem c1_roundtrip_amended (L : Layout) (D N dl q : Nat) (v : VolumeM)
    (byteOff : Nat) (payload out : List Nat)
    (hwf : layoutWF L D) (hN : 1 ≤ N) (hdl : dl = q * N)
    (hlen : v.disks.length = D) (hh : healthyDisks v.disks dl)
    (hcap : byteOff + payload.length ≤ dataCount L D * dl)
    (hout : out.length = payload.length) :
    (readBytes (layoutOps L D N) N
      (writeBytes (layoutOps L D N) N v byteOff payload) byteOff out).1 = payload := by
  obtain ⟨w1, w2, w3⟩ := writeLoop_healthy L D N dl byteOff payload payload.length v 0
    hwf hN hlen hh (by omega)
  obtain ⟨r1, r2, r3, _, _, _⟩ := readLoop_healthy L D N dl byteOff out.length
    (writeLoop (layoutOps L D N) N payload byteOff payload.length v 0) out 0
    hwf hN w1 w2 (by omega)
  have hRB : (readBytes (layoutOps L D N) N
      (writeBytes (layoutOps L D N) N v byteOff payload) byteOff out).1 =
      (readLoop (layoutOps L D N) N byteOff out.length
        (writeLoop (layoutOps L D N) N payload byteOff payload.length v 0) out 0).1 := rfl
  rw [hRB]
  apply List.ext_getElem
  · rw [r1, hout]
  · intro p h1 h2
    have hp : p < out.length := by rw [r1] at h1; exact h1
    rw [← getD_eq_getElem_of_lt _ 0 h1, ← getD_eq_getElem_of_lt _ 0 h2,
      r3 p (by omega) hp, w3 (byteOff + p)]
    have hok : diskOffOf (dataCount L D * N) N (byteOff + p) < dl :=
      diskOff_lt (dataCount L D) N dl q (byteOff + p) hN (dataCount_pos L D hwf) hdl
        (by omega)
    rw [if_pos ⟨by omega, by omega, hok⟩]
    congr 1
    omega

/-- C1 (counterexample to the claim as stated): RAID0 with `D = 2`,
`N = 2` and a one-byte disk has logical capacity 2, all disks healthy;
writing `[5, 6]` at offset 0 and reading 2 bytes back yields `[5, 0]`,
because byte 1 of the stripe's first chunk lies beyond the end of disk 0
and the write is silently truncated. -/
theorem c1_roundtrip_counterexample :
    healthyDisks [⟨1, fun _ => 0, false, false⟩, ⟨1, fun _ => 0, false, false⟩] 1 ∧
    logicalCapacityBytes (layoutOps .raid0 2 2)
      ⟨[⟨1, fun _ => 0, false, false⟩, ⟨1, fun _ => 0, false, false⟩], []⟩ = 2 ∧
    (0 : Nat) + ([5, 6] : List Nat).length ≤ 2 ∧
    (readBytes (layoutOps .raid0 2 2) 2
      (writeBytes (layoutOps .raid0 2 2) 2
        ⟨[⟨1, fun _ => 0, false, false⟩, ⟨1, fun _ => 0, false, false⟩], []⟩ 0 [5, 6])
      0 [0, 0]).1 = [5, 0] ∧
    ([5, 0] : List Nat) ≠ [5, 6] :=
  ⟨healthy_cons _ _ _ ⟨rfl, rfl, rfl⟩ (healthy_cons _ _ _ ⟨rfl, rfl, rfl⟩ (healthy_nil _)),
   rfl, by decide, rfl, by decide⟩

theorem c1_roundtrip_amended_witness :
    (layoutWF .raid0 1 ∧ 1 ≤ 1 ∧ (1 : Nat) = 1 * 1 ∧
      ((⟨[⟨1, fun _ => 0, false, false⟩], []⟩ : VolumeM)).disks.length = 1 ∧
      healthyDisks (⟨[⟨1, fun _ => 0, false, false⟩], []⟩ : VolumeM).disks 1 ∧
      (0 : Nat) + ([3] : List Nat).length ≤ dataCount .raid0 1 * 1 ∧
      ([0] : List Nat).length = ([3] : List Nat).length) ∧
    (readBytes (layoutOps .raid0 1 1) 1
      (writeBytes (layoutOps .raid0 1 1) 1
        ⟨[⟨1, fun _ => 0, false, false⟩], []⟩ 0 [3]) 0 [0]).1 = [3] :=
  ⟨⟨Nat.le_refl 1, by decide, by decide, rfl,
    healthy_cons _ _ _ ⟨rfl, rfl, rfl⟩ (healthy_nil _), by decide, by decide⟩,
   c1_roundtrip_amended .raid0 1 1 1 1 ⟨[⟨1, fun _ => 0, false, false⟩], []⟩ 0 [3] [0]
     (Nat.le_refl 1) (by decide) (by decide) rfl
     (healthy_cons _ _ _ ⟨rfl, rfl, rfl⟩ (healthy_nil _)) (by decide) (by decide)⟩

/-! ## C9: writes do not disturb unrelated bytes -/

/-- C9: on a volume with all disks operational and trusted,
`write_bytes(O, P)` (range within capacity) changes no logical byte
outside `[O, O + |P|)`: a `read_bytes` over any range disjoint from the
written one returns the same bytes after the write as before it. -/
theorem c9_write_frame (L : Layout) (D N dl : Nat) (v : VolumeM)
    (byteOff offR : Nat) (payload out : List Nat)
    (hwf : layoutWF L D) (hN : 1 ≤ N) (hlen : v.disks.length = D)
    (hh : healthyDisks v.disks dl)
    (hcap : byteOff + payload.length ≤ dataCount L D * dl)
    (hdisj : offR + out.length ≤ byteOff ∨ byteOff + payload.length ≤ offR) :
    (readBytes (layoutOps L D N) N
      (writeBytes (layoutOps L D N) N v byteOff payload) offR out).1 =
    (readBytes (layoutOps L D N) N v offR out).1 := by
  obtain ⟨w1, w2, w3⟩ := writeLoop_healthy L D N dl byteOff payload payload.length v 0
    hwf hN hlen hh (by omega)
  obtain ⟨r1, r2, r3, _, _, _⟩ := readLoop_healthy L D N dl offR out.length
    (writeLoop (layoutOps L D N) N payload byteOff payload.length v 0) out 0
    hwf hN w1 w2 (by omega)
  obtain ⟨q1, q2, q3, _, _, _⟩ := readLoop_healthy L D N dl offR out.length v out 0
    hwf hN hlen hh (by omega)
  have hRB : (readBytes (layoutOps L D N) N
      (writeBytes (layoutOps L D N) N v byteOff payload) offR out).1 =
      (readLoop (layoutOps L D N) N offR out.length
        (writeLoop (layoutOps L D N) N payload byteOff payload.length v 0) out 0).1 := rfl
  have hRB2 : (readBytes (layoutOps L D N) N v offR out).1 =
      (readLoop (layoutOps L D N) N offR out.length v out 0).1 := rfl
  rw [hRB, hRB2]
  apply List.ext_getElem
  · rw [r1, q1]
  · intro p h1 h2
    have hp : p < out.length := by rw [r1] at h1; exact h1
    rw [← getD_eq_getElem_of_lt _ 0 h1, ← getD_eq_getElem_of_lt _ 0 h2,
      r3 p (by omega) hp, q3 p (by omega) hp, w3 (offR + p),
      if_neg (by rintro ⟨hx1, hx2, _⟩; omega)]

theorem c9_write_frame_witness :
    (layoutWF .raid0 1 ∧ 1 ≤ 1 ∧
      ((⟨[⟨2, fun _ => 0, false, false⟩], []⟩ : VolumeM)).disks.length = 1 ∧
      healthyDisks (⟨[⟨2, fun _ => 0, false, false⟩], []⟩ : VolumeM).disks 2 ∧
      (0 : Nat) + ([4] : List Nat).length ≤ dataCount .raid0 1 * 2 ∧
      ((1 : Nat) + ([0] : List Nat).length ≤ 0 ∨
        (0 : Nat) + ([4] : List Nat).length ≤ 1)) ∧
    (readBytes (layoutOps .raid0 1 1) 1
      (writeBytes (layoutOps .raid0 1 1) 1
        ⟨[⟨2, fun _ => 0, false, false⟩], []⟩ 0 [4]) 1 [0]).1 =
    (readBytes (layoutOps .raid0 1 1) 1
      ⟨[⟨2, fun _ => 0, false, false⟩], []⟩ 1 [0]).1 :=
  ⟨⟨Nat.le_refl 1, by decide, rfl,
    healthy_cons _ _ _ ⟨rfl, rfl, rfl⟩ (healthy_nil _), by decide, by decide⟩,
   c9_write_frame .raid0 1 1 2 ⟨[⟨2, fun _ => 0, false, false⟩], []⟩ 0 1 [4] [0]
     (Nat.le_refl 1) (by decide) rfl
     (healthy_cons _ _ _ ⟨rfl, rfl, rfl⟩ (healthy_nil _)) (by decide) (by decide)⟩

/-! ## C2: RAID3 reads under a single disk failure -/

theorem bxor_all_zero (l : List Nat) (h : ∀ x ∈ l, x = 0) : bxor l = 0 := by
  induction l with
  | nil => rfl
  | cons a l ih =>
    have ha : a = 0 := h a (by simp)
    have hstep : bxor (a :: l) = Nat.xor a (bxor l) := by
      show List.foldl Nat.xor (Nat.xor 0 a) l = _
      have hz : Nat.xor 0 a = a := Nat.zero_xor a
      rw [foldl_xor_init, hz]
    rw [hstep, ih (fun x hx => h x (by simp [hx])), ha]
    exact Nat.zero_xor 0

theorem map_eraseIdx {α β : Type} (f : α → β) (l : List α) (i : Nat) :
    (l.eraseIdx i).map f = (l.map f).eraseIdx i := by
  induction l generalizing i with
  | nil => simp [List.eraseIdx]
  | cons a l ih =>
    cases i with
    | zero => simp [List.eraseIdx]
    | succ i => simp [List.eraseIdx, ih]

theorem eraseIdx_set {α : Type} (l : List α) (i : Nat) (x : α) :
    (l.set i x).eraseIdx i = l.eraseIdx i := by
  induction l generalizing i with
  | nil => rfl
  | cons a l ih =>
    cases i with
    | zero => rfl
    | succ i =>
      show a :: (l.set i x).eraseIdx i = a :: l.eraseIdx i
      rw [ih]

theorem filter_eq_single : ∀ (D : Nat) (p : Nat → Bool) (i : Nat), i < D →
    (∀ j, j < D → (p j = true ↔ j = i)) → (List.range D).filter p = [i] := by
  intro D
  induction D with
  | zero => intro p i hi hp; omega
  | succ d ih =>
    intro p i hi hp
    rw [List.range_succ, List.filter_append]
    by_cases hid : i = d
    · subst hid
      have h1 : (List.range i).filter p = [] := by
        rw [List.filter_eq_nil_iff]
        intro j hj hpj
        have hjlt : j < i := List.mem_range.1 hj
        have := (hp j (by omega)).1 hpj
        omega
      have h2 : p i = true := (hp i (by omega)).2 rfl
      rw [h1, List.nil_append, List.filter_cons, if_pos h2]
      rfl
    · have h2 : p d = false := by
        cases hpd : p d
        · rfl
        · exact absurd ((hp d (by omega)).1 hpd).symm hid
      rw [ih p i (by omega) (fun j hj => hp j (by omega)), List.filter_cons,
        if_neg (by simp [h2]), List.filter_nil, List.append_nil]

theorem getD_append_singleton {α : Type} (l : List α) (x d : α) :
    (l ++ [x]).getD l.length d = x := by
  rw [getD_eq_getElem_of_lt _ _ (by simp),
    List.getElem_append_right (Nat.le_refl _)]
  simp

theorem getD_map_byte (f : Cell → Nat) (l : List Cell) (i : Nat) (hi : i < l.length) :
    (l.map f).getD i 0 = f (l.getD i []) := by
  rw [getD_eq_getElem_of_lt _ _ (by simpa using hi), List.getElem_map,
    getD_eq_getElem_of_lt _ _ hi]

theorem getDisk_failDisk (v : VolumeM) (i j : Nat) (hi : i < v.disks.length) :
    getDisk (failDisk v i).disks j =
      if j = i then { getDisk v.disks i with missing := true }
      else getDisk v.disks j := by
  show getDisk (v.disks.set i { getDisk v.disks i with missing := true }) j = _
  rw [getDisk_set]
  by_cases h : j = i
  · rw [if_pos ⟨h.symm, by omega⟩, if_pos h]
  · rw [if_neg (fun hc => h hc.1.symm), if_neg h]

theorem data_failDisk (v : VolumeM) (i j : Nat) (hi : i < v.disks.length) :
    (getDisk (failDisk v i).disks j).data = (getDisk v.disks j).data ∧
    (getDisk (failDisk v i).disks j).len = (getDisk v.disks j).len := by
  rw [getDisk_failDisk v i j hi]
  by_cases h : j = i
  · rw [if_pos h, h]
    exact ⟨rfl, rfl⟩
  · rw [if_neg h]
    exact ⟨rfl, rfl⟩

theorem lbyte_failDisk (L : Layout) (D N : Nat) (v : VolumeM) (i : Nat)
    (hi : i < v.disks.length) (a : Nat) :
    lbyte L D N (failDisk v i).disks a = lbyte L D N v.disks a := by
  obtain ⟨hd, hl⟩ := data_failDisk v i (dataDiskIdx L ((a % (dataCount L D * N)) / N)) hi
  simp only [lbyte]
  rw [hd, hl]

theorem pcOk_data_congr (D N : Nat) (disks1 disks2 : List DiskM) (dl s : Nat)
    (hD : 1 ≤ D)
    (hdata : ∀ j, j < D → (getDisk disks2 j).data = (getDisk disks1 j).data)
    (h : pcOk D N disks1 dl s) : pcOk D N disks2 dl s := by
  intro b hb hlt
  rw [hdata (D - 1) (by omega), h b hb hlt]
  refine congrArg bxor (List.map_congr_left fun j hj => ?_)
  rw [hdata j (by have := List.mem_range.1 hj; omega)]

theorem raid3_raw_cells (D N : Nat) (st chunks2 : List Cell)
    (hD : 2 ≤ D) (hch : chunks2.length = D - 1) :
    (layoutOps .raid3 D N).readRaw ((layoutOps .raid3 D N).write st chunks2) =
      chunks2 ++ [xorAll chunks2 N] := by
  have h1 : chunks2.take (D - 1) = chunks2 := take_full chunks2 (D - 1) hch
  show (raid3WriteParity D N (chunks2.take (D - 1) ++ st.drop (D - 1))).take D = _
  rw [raid3WriteParity, h1]
  have h2 : (chunks2 ++ st.drop (D - 1)).take (D - 1) = chunks2 := by
    rw [← hch]
    exact List.take_left chunks2 _
  rw [h2]
  apply take_full
  rw [List.length_append, hch]
  simp
  omega

/-- Storing a RAID3 stripe on healthy disks makes stripe `sk` parity
consistent and preserves parity consistency of every other stripe. -/
theorem store_pcOk (D N dl : Nat) (disks : List DiskM) (st chunks2 : List Cell)
    (sk : Nat)
    (hD : 2 ≤ D) (hN : 1 ≤ N) (hlen : disks.length = D) (hh : healthyDisks disks dl)
    (hch : chunks2.length = D - 1) (hcl : ∀ c ∈ chunks2, c.length = N) :
    ∀ s, (s = sk ∨ pcOk D N disks dl s) →
      pcOk D N (arrayWrite disks (sk * N)
        ((layoutOps .raid3 D N).readRaw ((layoutOps .raid3 D N).write st chunks2)))
        dl s := by
  rw [raid3_raw_cells D N st chunks2 hD hch]
  set cells := chunks2 ++ [xorAll chunks2 N] with hcellsdef
  have hclen : cells.length = D := by
    rw [hcellsdef, List.length_append, hch]
    simp
    omega
  have hcells : ∀ c ∈ cells, c.length = N := by
    intro c hc
    rw [hcellsdef] at hc
    rcases List.mem_append.1 hc with h | h
    · exact hcl c h
    · rw [List.mem_singleton.1 h]
      exact length_xorAll chunks2 N hcl
  have hdataF : ∀ j, j < D → ∀ p, (getDisk (arrayWrite disks (sk * N) cells) j).data p =
      if sk * N ≤ p ∧ p < sk * N + diskWriteCount (getDisk disks j) (sk * N) N
      then (cells.getD j []).getD (p - sk * N) 0
      else (getDisk disks j).data p := by
    intro j hj p
    obtain ⟨hm, _, _⟩ := healthy_getDisk disks dl hh j (by omega)
    have hcj : (cells.getD j []).length = N := by
      apply hcells
      rw [getD_eq_getElem_of_lt _ _ (by omega : j < cells.length)]
      exact List.getElem_mem (by omega)
    rw [getDisk_arrayWrite disks (sk * N) cells j (by omega) (by omega),
      if_neg (by simp [hm])]
    show (if diskWriteCount (getDisk disks j) (sk * N) (cells.getD j []).length
          = (cells.getD j []).length
        then { diskWriteAt (getDisk disks j) (sk * N) (cells.getD j [])
                with needsRebuild := false }
        else diskWriteAt (getDisk disks j) (sk * N) (cells.getD j [])).data p = _
    rw [hcj]
    by_cases hfull : diskWriteCount (getDisk disks j) (sk * N) N = N
    · rw [if_pos hfull]
      show (if sk * N ≤ p ∧ p < sk * N + diskWriteCount (getDisk disks j) (sk * N)
          (cells.getD j []).length then (cells.getD j []).getD (p - sk * N) 0
        else (getDisk disks j).data p) = _
      rw [hcj]
    · rw [if_neg hfull]
      show (if sk * N ≤ p ∧ p < sk * N + diskWriteCount (getDisk disks j) (sk * N)
          (cells.getD j []).length then (cells.getD j []).getD (p - sk * N) 0
        else (getDisk disks j).data p) = _
      rw [hcj]
  have hwin : ∀ b, b < N → sk * N + b < dl → ∀ j, j < D →
      (getDisk (arrayWrite disks (sk * N) cells) j).data (sk * N + b) =
        (cells.getD j []).getD b 0 := by
    intro b hb hlt j hj
    obtain ⟨hm, _, hlenj⟩ := healthy_getDisk disks dl hh j (by omega)
    rw [hdataF j hj (sk * N + b)]
    have hnc : ¬((getDisk disks j).missing = true ∨ (getDisk disks j).len ≤ sk * N) := by
      rw [hm, hlenj]
      simp
      omega
    have hk : diskWriteCount (getDisk disks j) (sk * N) N = min N (dl - sk * N) := by
      rw [diskWriteCount, if_neg hnc, hlenj]
    rw [hk, if_pos (by omega)]
    have hsub : sk * N + b - sk * N = b := by omega
    rw [hsub]
  have hframe : ∀ j p, j < D → (p < sk * N ∨ sk * N + N ≤ p) →
      (getDisk (arrayWrite disks (sk * N) cells) j).data p =
        (getDisk disks j).data p := by
    intro j p hj hout
    rw [hdataF j hj p]
    have hkle : diskWriteCount (getDisk disks j) (sk * N) N ≤ N := by
      rw [diskWriteCount]
      by_cases hc : (getDisk disks j).missing = true ∨ (getDisk disks j).len ≤ sk * N
      · rw [if_pos hc]
        omega
      · rw [if_neg hc]
        exact Nat.min_le_left _ _
    rw [if_neg (by omega)]
  intro s hs b hb hlt
  by_cases hssk : s = sk
  · subst hssk
    rw [hwin b hb hlt (D - 1) (by omega)]
    have hcd : cells.getD (D - 1) [] = xorAll chunks2 N := by
      rw [hcellsdef, ← hch]
      exact getD_append_singleton chunks2 _ []
    rw [hcd, getD_xorAll chunks2 N b hcl hb]
    have hmap : ((List.range (D - 1)).map fun j =>
        (getDisk (arrayWrite disks (s * N) cells) j).data (s * N + b)) =
        chunks2.map fun c => c.getD b 0 := by
      apply List.ext_getElem
      · simp [hch]
      · intro j h1 h2
        have hj : j < D - 1 := by simpa using h1
        simp only [List.getElem_map, List.getElem_range]
        rw [hwin b hb hlt j (by omega), hcellsdef,
          getD_append_left chunks2 _ j [] (by omega),
          getD_eq_getElem_of_lt _ _ (by omega : j < chunks2.length)]
    rw [hmap]
  · rcases hs with h | hpc
    · exact absurd h hssk
    · have hdis : ∀ q, q < N → s * N + q < sk * N ∨ sk * N + N ≤ s * N + q := by
        intro q hq
        have := stripe_window_disjoint sk s q N hq hssk
        tauto
      rw [hframe (D - 1) (s * N + b) (by omega) (hdis b hb)]
      have hmap2 : ((List.range (D - 1)).map fun j =>
          (getDisk (arrayWrite disks (sk * N) cells) j).data (s * N + b)) =
          (List.range (D - 1)).map fun j => (getDisk disks j).data (s * N + b) :=
        List.map_congr_left fun j hj =>
          hframe j _ (by have := List.mem_range.1 hj; omega) (hdis b hb)
      rw [hmap2]
      exact hpc b hb hlt

/-- Loading a RAID3 stripe of an all-healthy volume changes at most the
parity disk, only inside the stripe's window, and afterwards the parity
disk's window bytes hold the XOR of the data disks' bytes. -/
theorem load_raid3_disks (D N dl : Nat) (v : VolumeM) (sk : Nat)
    (hD : 2 ≤ D) (hN : 1 ≤ N) (hlen : v.disks.length = D)
    (hh : healthyDisks v.disks dl) :
    (∀ j, j < D → j ≠ D - 1 →
      getDisk (loadStripe (layoutOps .raid3 D N) N v sk).disks j =
        getDisk v.disks j) ∧
    (∀ p, p < sk * N ∨ sk * N + N ≤ p →
      (getDisk (loadStripe (layoutOps .raid3 D N) N v sk).disks (D - 1)).data p =
        (getDisk v.disks (D - 1)).data p) ∧
    (∀ b, b < N → sk * N + b < dl →
      (getDisk (loadStripe (layoutOps .raid3 D N) N v sk).disks (D - 1)).data
          (sk * N + b) =
        bxor ((List.range (D - 1)).map fun j =>
          (getDisk v.disks j).data (sk * N + b))) := by
  have hwf : layoutWF .raid3 D := hD
  have hs1 : arrayReadS1 (layoutOps .raid3 D N) N v.disks (sk * N) v.st =
      bufOf (layoutOps .raid3 D N).hasRestore N v.disks (sk * N) :=
    s1_eq_buf _ N v.disks (sk * N) v.st D hlen rfl
  have hdeg : degradedOf (layoutOps .raid3 D N).hasRestore v.disks = [] :=
    degradedOf_nil _ v.disks dl hh
  set buf := bufOf (layoutOps .raid3 D N).hasRestore N v.disks (sk * N) with hbufdef
  have hrest : arrayReadRestored (layoutOps .raid3 D N)
      ⟨raid3Restore D N, raid3Scrub D N⟩ v.disks
      (arrayReadS1 (layoutOps .raid3 D N) N v.disks (sk * N) v.st) = (buf, []) := by
    rw [arrayReadRestored, hdeg, hs1]
    split
    · rfl
    · rfl
  have hbuflen : buf.length = D := by rw [hbufdef, length_bufOf, hlen]
  have hbufcells : ∀ c ∈ buf, c.length = N := by
    rw [hbufdef]
    exact cells_bufOf _ N v.disks (sk * N)
  have htcells : ∀ c ∈ buf.take (D - 1), c.length = N :=
    fun c hc => hbufcells c (List.mem_of_mem_take hc)
  have hbufrow : ∀ j, j < D → ∀ b, b < N → sk * N + b < dl →
      (buf.getD j []).getD b 0 = (getDisk v.disks j).data (sk * N + b) := by
    intro j hj b hb hblt
    obtain ⟨hm, _, hl⟩ := healthy_getDisk v.disks dl hh j (by omega)
    rw [hbufdef, buf_getD_eq_read _ N dl v.disks (sk * N) j (by omega) hh,
      getD_diskReadAt _ _ _ _ hb, if_pos ⟨hm, by omega⟩]
  have hxa : ∀ b, b < N → sk * N + b < dl →
      (xorAll (buf.take (D - 1)) N).getD b 0 =
        bxor ((List.range (D - 1)).map fun j =>
          (getDisk v.disks j).data (sk * N + b)) := by
    intro b hb hblt
    rw [getD_xorAll _ N b htcells hb]
    refine congrArg bxor ?_
    apply List.ext_getElem
    · simp [hbuflen]
    · intro j h1 h2
      have hj : j < D - 1 := by
        rw [List.length_map, List.length_take, hbuflen] at h1
        omega
      simp only [List.getElem_map, List.getElem_range, List.getElem_take]
      rw [← getD_eq_getElem_of_lt buf ([] : Cell) (by omega : j < buf.length)]
      exact hbufrow j (by omega) b hb hblt
  have hstripe : arrayReadStripe (layoutOps .raid3 D N) N v.disks (sk * N) v.st =
      (raid3Scrub D N buf).1 := by
    show (raid3Scrub D N (arrayReadRestored (layoutOps .raid3 D N)
      ⟨raid3Restore D N, raid3Scrub D N⟩ v.disks
      (arrayReadS1 (layoutOps .raid3 D N) N v.disks (sk * N) v.st)).1).1 = _
    rw [hrest]
  have hrep : arrayReadRepaired (layoutOps .raid3 D N) N v.disks (sk * N) v.st =
      sortDedup ([] ++ (raid3Scrub D N buf).2) := by
    show sortDedup ((arrayReadRestored (layoutOps .raid3 D N)
        ⟨raid3Restore D N, raid3Scrub D N⟩ v.disks
        (arrayReadS1 (layoutOps .raid3 D N) N v.disks (sk * N) v.st)).2 ++
      (raid3Scrub D N (arrayReadRestored (layoutOps .raid3 D N)
        ⟨raid3Restore D N, raid3Scrub D N⟩ v.disks
        (arrayReadS1 (layoutOps .raid3 D N) N v.disks (sk * N) v.st)).1).2) = _
    rw [hrest]
  have harr1 : (arrayRead (layoutOps .raid3 D N) N v.disks (sk * N) v.st).1 =
      writeBack v.disks (sk * N)
        ((arrayReadStripe (layoutOps .raid3 D N) N v.disks (sk * N) v.st).take D)
        (arrayReadRepaired (layoutOps .raid3 D N) N v.disks (sk * N) v.st) := rfl
  have hld : (loadStripe (layoutOps .raid3 D N) N v sk).disks =
      (arrayRead (layoutOps .raid3 D N) N v.disks (sk * N) v.st).1 := rfl
  by_cases hsc : buf.getD (D - 1) [] = xorAll (buf.take (D - 1)) N
  · have hscrub : raid3Scrub D N buf = (buf, []) := by
      rw [raid3Scrub, if_pos hsc]
    have hd1 : (loadStripe (layoutOps .raid3 D N) N v sk).disks = v.disks := by
      rw [hld, harr1, hstripe, hrep, hscrub]
      rfl
    refine ⟨fun j hj hjp => by rw [hd1], fun p hp => by rw [hd1], fun b hb hblt => ?_⟩
    rw [hd1]
    have h1 : (getDisk v.disks (D - 1)).data (sk * N + b) =
        (buf.getD (D - 1) []).getD b 0 := (hbufrow (D - 1) (by omega) b hb hblt).symm
    rw [h1, hsc, hxa b hb hblt]
  · have hscrub : raid3Scrub D N buf =
        (buf.set (D - 1) (xorAll (buf.take (D - 1)) N), [D - 1]) := by
      rw [raid3Scrub, if_neg hsc]
    set st3 := buf.set (D - 1) (xorAll (buf.take (D - 1)) N) with hst3
    have hmiss : (getDisk v.disks (D - 1)).missing = false :=
      (healthy_getDisk v.disks dl hh (D - 1) (by omega)).1
    have hsd : sortDedup (([] : List Nat) ++ [D - 1]) = [D - 1] := by
      simp [sortDedup, insSorted]
    have hpcv : (st3.take D).getD (D - 1) [] = xorAll (buf.take (D - 1)) N := by
      rw [take_full st3 D (by rw [hst3, List.length_set, hbuflen]), hst3,
        getD_set, if_pos ⟨rfl, by omega⟩]
    have hd1 : (loadStripe (layoutOps .raid3 D N) N v sk).disks =
        v.disks.set (D - 1) (diskWriteAt (getDisk v.disks (D - 1)) (sk * N)
          ((st3.take D).getD (D - 1) [])) := by
      rw [hld, harr1, hstripe, hrep, hscrub]
      show writeBack v.disks (sk * N) (st3.take D) (sortDedup ([] ++ [D - 1])) = _
      rw [hsd, writeBack, List.foldl_cons, List.foldl_nil,
        if_neg (by omega), if_neg (by rw [hmiss]; simp)]
    have hplen : ((st3.take D).getD (D - 1) []).length = N := by
      rw [hpcv]
      exact length_xorAll _ N htcells
    refine ⟨?_, ?_, ?_⟩
    · intro j hj hjp
      rw [hd1, getDisk_set, if_neg (fun hc => hjp hc.1.symm)]
    · intro p hp
      rw [hd1, getDisk_set, if_pos ⟨rfl, by omega⟩]
      show (if sk * N ≤ p ∧ p < sk * N + diskWriteCount (getDisk v.disks (D - 1))
          (sk * N) ((st3.take D).getD (D - 1) []).length
        then ((st3.take D).getD (D - 1) []).getD (p - sk * N) 0
        else (getDisk v.disks (D - 1)).data p) = _
      have hkle : diskWriteCount (getDisk v.disks (D - 1)) (sk * N)
          ((st3.take D).getD (D - 1) []).length ≤ N := by
        rw [hplen, diskWriteCount]
        by_cases hc : (getDisk v.disks (D - 1)).missing = true ∨
            (getDisk v.disks (D - 1)).len ≤ sk * N
        · rw [if_pos hc]
          omega
        · rw [if_neg hc]
          exact Nat.min_le_left _ _
      rw [if_neg (by omega)]
    · intro b hb hblt
      obtain ⟨_, _, hl⟩ := healthy_getDisk v.disks dl hh (D - 1) (by omega)
      rw [hd1, getDisk_set, if_pos ⟨rfl, by omega⟩]
      show (if sk * N ≤ sk * N + b ∧ sk * N + b < sk * N + diskWriteCount
          (getDisk v.disks (D - 1)) (sk * N) ((st3.take D).getD (D - 1) []).length
        then ((st3.take D).getD (D - 1) []).getD (sk * N + b - sk * N) 0
        else (getDisk v.disks (D - 1)).data (sk * N + b)) = _
      have hk : diskWriteCount (getDisk v.disks (D - 1)) (sk * N)
          ((st3.take D).getD (D - 1) []).length = min N (dl - sk * N) := by
        rw [hplen, diskWriteCount, if_neg (by rw [hmiss, hl]; simp; omega), hl]
      rw [hk, if_pos (by omega)]
      have hsub : sk * N + b - sk * N = b := by omega
      rw [hsub, hpcv, hxa b hb hblt]

/-- A healthy RAID3 load establishes parity consistency of the loaded
stripe and preserves it for every other stripe. -/
theorem load_raid3_pcOk (D N dl : Nat) (v : VolumeM) (sk : Nat)
    (hD : 2 ≤ D) (hN : 1 ≤ N) (hlen : v.disks.length = D)
    (hh : healthyDisks v.disks dl) :
    ∀ s, (s = sk ∨ pcOk D N v.disks dl s) →
      pcOk D N (loadStripe (layoutOps .raid3 D N) N v sk).disks dl s := by
  obtain ⟨F1, F2, F3⟩ := load_raid3_disks D N dl v sk hD hN hlen hh
  intro s hs b hb hlt
  by_cases hssk : s = sk
  · subst hssk
    rw [F3 b hb hlt]
    refine congrArg bxor ?_
    refine (List.map_congr_left fun j hj => ?_).symm
    have hjd : j < D - 1 := List.mem_range.1 hj
    rw [F1 j (by omega) (by omega)]
  · rcases hs with h | hpc
    · exact absurd h hssk
    · have hdis := stripe_window_disjoint sk s b N hb hssk
      rw [F2 (s * N + b) hdis]
      have hmap : ((List.range (D - 1)).map fun j =>
          (getDisk (loadStripe (layoutOps .raid3 D N) N v sk).disks j).data
            (s * N + b)) =
          (List.range (D - 1)).map fun j =>
            (getDisk v.disks j).data (s * N + b) :=
        List.map_congr_left fun j hj => by
          rw [F1 j (by have := List.mem_range.1 hj; omega)
            (by have := List.mem_range.1 hj; omega)]
      rw [hmap]
      exact hpc b hb hlt

/-- After the `write_bytes` loop on an all-healthy RAID3 volume, every
stripe touched by the written range is parity consistent. -/
theorem writeLoop_pcOk (D N dl byteOff : Nat) (payload : List Nat) :
    ∀ (fuel : Nat) (v : VolumeM) (written : Nat),
    2 ≤ D → 1 ≤ N → v.disks.length = D → healthyDisks v.disks dl →
    payload.length - written ≤ fuel → 0 < payload.length →
    (∀ s, 0 < written → sTouches ((D - 1) * N) byteOff written s →
      pcOk D N v.disks dl s) →
    ∀ s, sTouches ((D - 1) * N) byteOff payload.length s →
      pcOk D N
        (writeLoop (layoutOps .raid3 D N) N payload byteOff fuel v written).disks
        dl s := by
  intro fuel
  induction fuel with
  | zero =>
    intro v written hD hN hlen hh hfuel hpos hcov s hst
    exact hcov s (by omega) ⟨by have := hst.1; omega, hst.2⟩
  | succ fuel ih =>
    intro v written hD hN hlen hh hfuel hpos hcov s hst
    by_cases hlt : written < payload.length
    · have hwf : layoutWF .raid3 D := hD
      have hdN : (layoutOps .raid3 D N).dataN = dataCount .raid3 D :=
        layoutOps_dataN .raid3 D N
      have hDATA : 1 ≤ dataCount .raid3 D := dataCount_pos .raid3 D hwf
      have hbpspos : 0 < (layoutOps .raid3 D N).dataN * N := by
        rw [hdN]
        positivity
      set bps := (layoutOps .raid3 D N).dataN * N with hbpsdef
      have hbps3 : (D - 1) * N = bps := by
        rw [hbpsdef]
        rfl
      set sk := (byteOff + written) / bps with hskdef
      set inS := (byteOff + written) % bps with hinSdef
      set tk := min (bps - inS) (payload.length - written) with htkdef
      have hinS : inS < bps := Nat.mod_lt _ hbpspos
      have htk1 : 1 ≤ tk := by
        rw [htkdef]
        omega
      have htk2 : inS + tk ≤ bps := by
        rw [htkdef]
        omega
      have htk3 : written + tk ≤ payload.length := by
        rw [htkdef]
        omega
      have hdm := Nat.div_add_mod (byteOff + written) bps
      rw [← hskdef, ← hinSdef] at hdm
      have hmc : sk * bps = bps * sk := Nat.mul_comm sk bps
      obtain ⟨l1, l2, l3, l4⟩ := load_healthy .raid3 D N dl v sk hwf hN hlen hh
      rw [writeLoop_step _ _ _ _ _ _ _ hlt]
      set v1 := loadStripe (layoutOps .raid3 D N) N v sk with hv1def
      set chunks2 := updSeg N ((layoutOps .raid3 D N).read v1.st) inS tk
        payload written with hch2def
      have hch2len : chunks2.length = D - 1 := by
        rw [hch2def, length_updSeg, l4, length_dchunks]
        rfl
      have hch2cells : ∀ c ∈ chunks2, c.length = N := by
        rw [hch2def, l4]
        exact cells_updSeg N _ inS tk payload written
          (cells_dchunks .raid3 D N v.disks sk)
      have hv2eq : (storeStripe (layoutOps .raid3 D N) N
          ⟨v1.disks, (layoutOps .raid3 D N).write v1.st chunks2⟩ sk).disks =
          arrayWrite v1.disks (sk * N)
            ((layoutOps .raid3 D N).readRaw
              ((layoutOps .raid3 D N).write v1.st chunks2)) := rfl
      obtain ⟨s1, s2, _⟩ := store_healthy .raid3 D N dl v1.disks v1.st chunks2 sk
        hwf hN l1 l2 (by show chunks2.length = D - 1; exact hch2len) hch2cells
      set v2 := storeStripe (layoutOps .raid3 D N) N
        ⟨v1.disks, (layoutOps .raid3 D N).write v1.st chunks2⟩ sk with hv2def
      have hs1 : v2.disks.length = D := by
        rw [hv2def, hv2eq]
        exact s1
      have hs2 : healthyDisks v2.disks dl := by
        rw [hv2def, hv2eq]
        exact s2
      have hcov2 : ∀ sp, 0 < written + tk →
          sTouches ((D - 1) * N) byteOff (written + tk) sp →
          pcOk D N v2.disks dl sp := by
        intro sp _ hsp
        obtain ⟨hsp1, hsp2⟩ := hsp
        rw [hbps3] at hsp1 hsp2
        have he1 : (sp + 1) * bps = sp * bps + bps := by ring
        have he2 : (sk + 1) * bps = sk * bps + bps := by ring
        by_cases hspk : sp = sk
        · subst hspk
          rw [hv2def, hv2eq]
          exact store_pcOk D N dl v1.disks v1.st chunks2 sk hD hN l1 l2 hch2len
            hch2cells sk (Or.inl rfl)
        · have hsple : sp ≤ sk := by
            by_contra hcon
            have hle : sk + 1 ≤ sp := by omega
            have := Nat.mul_le_mul_right bps hle
            omega
          have hsplt : sp + 1 ≤ sk := by omega
          have hmul := Nat.mul_le_mul_right bps hsplt
          have hold : pcOk D N v.disks dl sp := by
            refine hcov sp (by omega) ?_
            rw [sTouches, hbps3]
            constructor
            · omega
            · omega
          have hafterload : pcOk D N v1.disks dl sp := by
            rw [hv1def]
            exact load_raid3_pcOk D N dl v sk hD hN hlen hh sp (Or.inr hold)
          rw [hv2def, hv2eq]
          exact store_pcOk D N dl v1.disks v1.st chunks2 sk hD hN l1 l2 hch2len
            hch2cells sp (Or.inr hafterload)
      exact ih v2 (written + tk) hD hN hs1 hs2 (by omega) hpos hcov2 s hst
    · rw [writeLoop_stop _ _ _ _ _ _ _ hlt]
      exact hcov s (by omega) ⟨by have := hst.1; omega, hst.2⟩

theorem list_ext_getD {α : Type} (l1 l2 : List α) (K : Nat) (d : α)
    (h1 : l1.length = K) (h2 : l2.length = K)
    (h : ∀ j, j < K → l1.getD j d = l2.getD j d) : l1 = l2 := by
  apply List.ext_getElem
  · rw [h1, h2]
  · intro j hj1 hj2
    rw [← getD_eq_getElem_of_lt l1 d hj1, ← getD_eq_getElem_of_lt l2 d hj2]
    exact h j (by omega)

/-- `Array::read` of a RAID3 stripe with exactly one missing disk `i` and
a parity-consistent stripe window: the disks are left exactly as they
were (the write-back skips the missing disk and the scrub agrees with the
restored cell), and the decoded data view equals the per-chunk rows of
the disks' images — the missing chunk is transparently reconstructed.
The restore path relies on the spec-modelled `reconstruct_data` /
`write_parity`. -/
theorem load_single_failed (D N dl : Nat) (v : VolumeM) (i sk : Nat)
    (hD : 3 ≤ D) (hN : 1 ≤ N) (hlen : v.disks.length = D) (hi : i < D)
    (hmi : (getDisk v.disks i).missing = true)
    (hli : (getDisk v.disks i).len = dl)
    (hothers : ∀ j, j < D → j ≠ i → (getDisk v.disks j).missing = false ∧
      (getDisk v.disks j).needsRebuild = false ∧ (getDisk v.disks j).len = dl)
    (hpc : pcOk D N v.disks dl sk) :
    (loadStripe (layoutOps .raid3 D N) N v sk).disks = v.disks ∧
    (layoutOps .raid3 D N).read (loadStripe (layoutOps .raid3 D N) N v sk).st =
      dchunks .raid3 D N v.disks sk := by
  have hs1 : arrayReadS1 (layoutOps .raid3 D N) N v.disks (sk * N) v.st =
      bufOf (layoutOps .raid3 D N).hasRestore N v.disks (sk * N) :=
    s1_eq_buf _ N v.disks (sk * N) v.st D hlen rfl
  have hdeg : degradedOf (layoutOps .raid3 D N).hasRestore v.disks = [i] := by
    rw [degradedOf, hlen]
    apply filter_eq_single D _ i hi
    intro j hj
    constructor
    · intro hpj
      by_contra hji
      obtain ⟨h1, h2, _⟩ := hothers j hj hji
      rw [h1, h2] at hpj
      simp at hpj
    · intro hj2
      subst hj2
      rw [hmi]
      rfl
  set buf := bufOf (layoutOps .raid3 D N).hasRestore N v.disks (sk * N) with hbufdef
  have hbuflen : buf.length = D := by rw [hbufdef, length_bufOf, hlen]
  have hbufcells : ∀ c ∈ buf, c.length = N := by
    rw [hbufdef]
    exact cells_bufOf _ N v.disks (sk * N)
  have htcells : ∀ c ∈ buf.take (D - 1), c.length = N :=
    fun c hc => hbufcells c (List.mem_of_mem_take hc)
  have hlen3 : (buf.take (D - 1)).length = D - 1 := by
    rw [List.length_take, hbuflen]
    omega
  have hbufj : ∀ j, j < D → j ≠ i → buf.getD j [] =
      diskReadAt (getDisk v.disks j) (sk * N) N := by
    intro j hj hji
    obtain ⟨h1, h2, _⟩ := hothers j hj hji
    rw [hbufdef, getD_bufOf _ N v.disks (sk * N) j (by omega),
      if_neg (by simp [h1, h2])]
  have hbufi : buf.getD i [] = List.replicate N 0 := by
    rw [hbufdef, getD_bufOf _ N v.disks (sk * N) i (by omega),
      if_pos (by simp [hmi])]
  have hFo : ∀ j, j < D → j ≠ i → ∀ b, b < N →
      (buf.getD j []).getD b 0 =
        if sk * N + b < dl then (getDisk v.disks j).data (sk * N + b) else 0 := by
    intro j hj hji b hb
    obtain ⟨h1, _, h3⟩ := hothers j hj hji
    rw [hbufj j hj hji, getD_diskReadAt _ _ _ _ hb, h1, h3]
    by_cases hc : sk * N + b < dl
    · rw [if_pos ⟨rfl, hc⟩, if_pos hc]
    · rw [if_neg (fun hcon => hc hcon.2), if_neg hc]
  have hbytes : ∀ b, b < N → buf.map (fun c => c.getD b 0) =
      ((List.range D).map fun j =>
        if sk * N + b < dl then (getDisk v.disks j).data (sk * N + b) else 0).set
        i 0 := by
    intro b hb
    apply list_ext_getD _ _ D 0
    · rw [List.length_map, hbuflen]
    · rw [List.length_set, List.length_map, List.length_range]
    · intro j hj
      rw [getD_map_byte _ _ j (by omega), getD_set]
      by_cases hji : i = j
      · rw [if_pos ⟨hji, by simpa using hj⟩, ← hji, hbufi]
        exact getD_replicate_zero N b hb
      · rw [if_neg (by tauto), getD_range_map_nat D _ j hj]
        exact hFo j hj (fun hc => hji hc.symm) b hb
  have hsplit : List.range D = List.range (D - 1) ++ [D - 1] := by
    have h1 : D = (D - 1) + 1 := by omega
    conv_lhs => rw [h1, List.range_succ]
  have hfull : ∀ b, b < N → bxor ((List.range D).map fun j =>
      if sk * N + b < dl then (getDisk v.disks j).data (sk * N + b) else 0) = 0 := by
    intro b hb
    by_cases hc : sk * N + b < dl
    · have hmapc : ((List.range D).map fun j =>
          if sk * N + b < dl then (getDisk v.disks j).data (sk * N + b) else 0) =
          (List.range D).map fun j => (getDisk v.disks j).data (sk * N + b) :=
        List.map_congr_left fun j hj => if_pos hc
      rw [hmapc, hsplit, List.map_append, bxor_append]
      have hone : bxor (List.map (fun j => (getDisk v.disks j).data (sk * N + b))
          [D - 1]) = (getDisk v.disks (D - 1)).data (sk * N + b) := Nat.zero_xor _
      rw [hone, hpc b hb hc]
      exact Nat.xor_self _
    · apply bxor_all_zero
      intro x hx
      obtain ⟨j, _, hj⟩ := List.mem_map.1 hx
      rw [← hj, if_neg hc]
  have hrbpar : ∀ b, b < N →
      (if sk * N + b < dl then (getDisk v.disks (D - 1)).data (sk * N + b) else 0) =
      bxor ((List.range (D - 1)).map fun j =>
        if sk * N + b < dl then (getDisk v.disks j).data (sk * N + b) else 0) := by
    intro b hb
    have h1 := hfull b hb
    rw [hsplit, List.map_append, bxor_append] at h1
    have hone : bxor (List.map (fun j =>
        if sk * N + b < dl then (getDisk v.disks j).data (sk * N + b) else 0)
        [D - 1]) =
        (if sk * N + b < dl then (getDisk v.disks (D - 1)).data (sk * N + b)
         else 0) := Nat.zero_xor _
    rw [hone] at h1
    exact (Nat.xor_eq_zero.1 h1).symm
  have hrecon : ∀ b, b < N → (xorAll (buf.eraseIdx i) N).getD b 0 =
      (if sk * N + b < dl then (getDisk v.disks i).data (sk * N + b) else 0) := by
    intro b hb
    rw [getD_xorAll _ N b (fun c hc => hbufcells c (List.mem_of_mem_eraseIdx hc)) hb,
      map_eraseIdx, hbytes b hb, eraseIdx_set,
      bxor_eraseIdx _ i (by simpa using hi),
      hfull b hb, getD_range_map_nat D _ i hi]
    exact Nat.zero_xor _
  have hrest : arrayReadRestored (layoutOps .raid3 D N)
      ⟨raid3Restore D N, raid3Scrub D N⟩ v.disks
      (arrayReadS1 (layoutOps .raid3 D N) N v.disks (sk * N) v.st) =
      (raid3Restore D N buf i, [i]) := by
    rw [arrayReadRestored, hdeg, hs1,
      if_neg (by intro hcon; have h1 : D - 1 = 1 := hcon.1; omega)]
    rfl
  set st2 := raid3Restore D N buf i with hst2def
  have hst2 : st2.length = D ∧ (∀ c ∈ st2, c.length = N) ∧
      (∀ b, b < N → st2.map (fun c => c.getD b 0) =
        (List.range D).map fun j =>
          if sk * N + b < dl then (getDisk v.disks j).data (sk * N + b) else 0) := by
    by_cases hip : i = D - 1
    · have hst2eq : st2 = buf.take (D - 1) ++ [xorAll (buf.take (D - 1)) N] := by
        rw [hst2def, raid3Restore, if_pos hip, raid3WriteParity]
      have hl2 : st2.length = D := by
        rw [hst2eq, List.length_append, hlen3]
        simp
        omega
      have hc2 : ∀ c ∈ st2, c.length = N := by
        intro c hc
        rw [hst2eq] at hc
        rcases List.mem_append.1 hc with h | h
        · exact htcells c h
        · rw [List.mem_singleton.1 h]
          exact length_xorAll _ N htcells
      refine ⟨hl2, hc2, ?_⟩
      intro b hb
      apply list_ext_getD _ _ D 0
      · rw [List.length_map, hl2]
      · rw [List.length_map, List.length_range]
      · intro j hj
        rw [getD_map_byte _ _ j (by omega), getD_range_map_nat D _ j hj]
        by_cases hjd : j < D - 1
        · rw [hst2eq, getD_append_left _ _ j [] (by omega),
            getD_take _ _ _ _ hjd]
          exact hFo j hj (by omega) b hb
        · have hjD : j = D - 1 := by omega
          subst hjD
          have hgd := getD_append_singleton (buf.take (D - 1))
            (xorAll (buf.take (D - 1)) N) ([] : Cell)
          rw [hlen3] at hgd
          rw [hst2eq, hgd, getD_xorAll _ N b htcells hb]
          have hmt : (buf.take (D - 1)).map (fun c => c.getD b 0) =
              (List.range (D - 1)).map fun j =>
                if sk * N + b < dl then (getDisk v.disks j).data (sk * N + b)
                else 0 := by
            rw [List.map_take, hbytes b hb,
              take_set_of_le _ _ _ _ (by omega), ← List.map_take, List.take_range]
            have hmin : (D - 1) ⊓ D = D - 1 := by omega
            rw [hmin]
          rw [hmt]
          exact (hrbpar b hb).symm
    · have hil : i < D - 1 := by omega
      have hst2eq : st2 = buf.set i (xorAll (buf.eraseIdx i) N) := by
        rw [hst2def, raid3Restore, if_neg hip, raid3ReconstructData]
      have hl2 : st2.length = D := by
        rw [hst2eq, List.length_set, hbuflen]
      have hc2 : ∀ c ∈ st2, c.length = N := by
        intro c hc
        rw [hst2eq] at hc
        rcases List.mem_or_eq_of_mem_set hc with h | h
        · exact hbufcells c h
        · rw [h]
          exact length_xorAll _ N
            (fun c hc2 => hbufcells c (List.mem_of_mem_eraseIdx hc2))
      refine ⟨hl2, hc2, ?_⟩
      intro b hb
      apply list_ext_getD _ _ D 0
      · rw [List.length_map, hl2]
      · rw [List.length_map, List.length_range]
      · intro j hj
        rw [getD_map_byte _ _ j (by omega), getD_range_map_nat D _ j hj, hst2eq,
          getD_set]
        by_cases hji : i = j
        · rw [if_pos ⟨hji, by omega⟩, hrecon b hb, hji]
        · rw [if_neg (by tauto)]
          exact hFo j hj (fun hc => hji hc.symm) b hb
  obtain ⟨hst2len, hst2cells, hs2bytes⟩ := hst2
  have htk2cells : ∀ c ∈ st2.take (D - 1), c.length = N :=
    fun c hc => hst2cells c (List.mem_of_mem_take hc)
  have hparcell : st2.getD (D - 1) [] ∈ st2 := by
    rw [getD_eq_getElem_of_lt _ _ (by omega : D - 1 < st2.length)]
    exact List.getElem_mem (by omega)
  have hparcons : st2.getD (D - 1) [] = xorAll (st2.take (D - 1)) N := by
    apply list_ext_getD _ _ N 0
    · exact hst2cells _ hparcell
    · exact length_xorAll _ N htk2cells
    · intro b hb
      have hLL : (st2.getD (D - 1) []).getD b 0 =
          (st2.map fun c => c.getD b 0).getD (D - 1) 0 :=
        (getD_map_byte (fun c => c.getD b 0) st2 (D - 1) (by omega)).symm
      rw [hLL, hs2bytes b hb, getD_range_map_nat D _ (D - 1) (by omega),
        getD_xorAll _ N b htk2cells hb]
      have hmt2 : (st2.take (D - 1)).map (fun c => c.getD b 0) =
          (List.range (D - 1)).map fun j =>
            if sk * N + b < dl then (getDisk v.disks j).data (sk * N + b) else 0 := by
        rw [List.map_take, hs2bytes b hb, ← List.map_take, List.take_range]
        have hmin : (D - 1) ⊓ D = D - 1 := by omega
        rw [hmin]
      rw [hmt2]
      exact hrbpar b hb
  have hscrub : raid3Scrub D N st2 = (st2, []) := by
    rw [raid3Scrub, if_pos hparcons]
  have hstripe : arrayReadStripe (layoutOps .raid3 D N) N v.disks (sk * N) v.st =
      (raid3Scrub D N st2).1 := by
    show (raid3Scrub D N (arrayReadRestored (layoutOps .raid3 D N)
      ⟨raid3Restore D N, raid3Scrub D N⟩ v.disks
      (arrayReadS1 (layoutOps .raid3 D N) N v.disks (sk * N) v.st)).1).1 = _
    rw [hrest]
  have hrep : arrayReadRepaired (layoutOps .raid3 D N) N v.disks (sk * N) v.st =
      sortDedup ([i] ++ (raid3Scrub D N st2).2) := by
    show sortDedup ((arrayReadRestored (layoutOps .raid3 D N)
        ⟨raid3Restore D N, raid3Scrub D N⟩ v.disks
        (arrayReadS1 (layoutOps .raid3 D N) N v.disks (sk * N) v.st)).2 ++
      (raid3Scrub D N (arrayReadRestored (layoutOps .raid3 D N)
        ⟨raid3Restore D N, raid3Scrub D N⟩ v.disks
        (arrayReadS1 (layoutOps .raid3 D N) N v.disks (sk * N) v.st)).1).2) = _
    rw [hrest]
  have hsd : sortDedup ([i] ++ ([] : List Nat)) = [i] := by
    simp [sortDedup, insSorted]
  have harr1 : (arrayRead (layoutOps .raid3 D N) N v.disks (sk * N) v.st).1 =
      writeBack v.disks (sk * N)
        ((arrayReadStripe (layoutOps .raid3 D N) N v.disks (sk * N) v.st).take D)
        (arrayReadRepaired (layoutOps .raid3 D N) N v.disks (sk * N) v.st) := rfl
  have hd1 : (loadStripe (layoutOps .raid3 D N) N v sk).disks = v.disks := by
    show (arrayRead (layoutOps .raid3 D N) N v.disks (sk * N) v.st).1 = v.disks
    rw [harr1, hstripe, hrep, hscrub]
    show writeBack v.disks (sk * N) (st2.take D) (sortDedup ([i] ++ ([] : List Nat)))
      = v.disks
    rw [hsd, writeBack, List.foldl_cons, List.foldl_nil, if_neg (by omega),
      if_pos hmi]
  refine ⟨hd1, ?_⟩
  show ((arrayRead (layoutOps .raid3 D N) N v.disks (sk * N) v.st).2).take (D - 1) = _
  have harr2 : (arrayRead (layoutOps .raid3 D N) N v.disks (sk * N) v.st).2 =
      arrayReadStripe (layoutOps .raid3 D N) N v.disks (sk * N) v.st := rfl
  rw [harr2, hstripe, hscrub]
  show st2.take (D - 1) = _
  apply List.ext_getElem
  · rw [List.length_take, hst2len, length_dchunks]
    show (D - 1) ⊓ D = D - 1
    omega
  · intro c h1 h2
    have hc : c < D - 1 := by
      rw [List.length_take, hst2len] at h1
      omega
    rw [List.getElem_take]
    simp only [dchunks]
    rw [List.getElem_map, List.getElem_range]
    refine list_ext_getD _ _ N 0 ?_ ?_ ?_
    · exact hst2cells _ (List.getElem_mem (by omega))
    · simp
    · intro b hb
      have hLL : st2[c].getD b 0 = (st2.map fun cc => cc.getD b 0).getD c 0 := by
        rw [getD_map_byte (fun cc => cc.getD b 0) st2 c (by omega),
          getD_eq_getElem_of_lt st2 ([] : Cell) (by omega)]
      rw [hLL, hs2bytes b hb, getD_range_map_nat D _ c (by omega),
        getD_range_map_nat N _ b hb,
        lbyte_decomp .raid3 D N v.disks sk c b (by show c < D - 1; exact hc) hb]
      have hidx : dataDiskIdx .raid3 c = c := rfl
      rw [hidx]
      have hlc : (getDisk v.disks c).len = dl := by
        by_cases hci : c = i
        · rw [hci]
          exact hli
        · exact (hothers c (by omega) hci).2.2
      rw [hlc]

/-- The `read_bytes` loop on a RAID3 volume with exactly one missing disk
and parity-consistent touched stripes: the disks are never modified and
the output holds the logical bytes of the range — identical to the bytes
of the healthy volume. -/
theorem readLoop_failed (D N dl byteOff i : Nat) :
    ∀ (fuel : Nat) (v : VolumeM) (out : List Nat) (readC : Nat),
    3 ≤ D → 1 ≤ N → v.disks.length = D → i < D →
    (getDisk v.disks i).missing = true →
    (getDisk v.disks i).len = dl →
    (∀ j, j < D → j ≠ i → (getDisk v.disks j).missing = false ∧
      (getDisk v.disks j).needsRebuild = false ∧ (getDisk v.disks j).len = dl) →
    out.length - readC ≤ fuel →
    (∀ s, sTouches ((D - 1) * N) byteOff out.length s → pcOk D N v.disks dl s) →
    ((readLoop (layoutOps .raid3 D N) N byteOff fuel v out readC).1.length =
      out.length ∧
     (∀ p, p < readC →
       (readLoop (layoutOps .raid3 D N) N byteOff fuel v out readC).1.getD p 0 =
         out.getD p 0) ∧
     (∀ p, readC ≤ p → p < out.length →
       (readLoop (layoutOps .raid3 D N) N byteOff fuel v out readC).1.getD p 0 =
         lbyte .raid3 D N v.disks (byteOff + p))) := by
  intro fuel
  induction fuel with
  | zero =>
    intro v out readC hD hN hlen hi hmi hli hothers hfuel hpcs
    exact ⟨rfl, fun p hp => rfl, fun p hp1 hp2 => absurd hp2 (by omega)⟩
  | succ fuel ih =>
    intro v out readC hD hN hlen hi hmi hli hothers hfuel hpcs
    by_cases hlt : readC < out.length
    · have hdN : (layoutOps .raid3 D N).dataN = dataCount .raid3 D := rfl
      have hDATA : 1 ≤ dataCount .raid3 D := by
        show 1 ≤ D - 1
        omega
      have hbpspos : 0 < (layoutOps .raid3 D N).dataN * N := by
        rw [hdN]
        positivity
      set bps := (layoutOps .raid3 D N).dataN * N with hbpsdef
      have hbps3 : (D - 1) * N = bps := by
        rw [hbpsdef]
        rfl
      set sk := (byteOff + readC) / bps with hskdef
      set inS := (byteOff + readC) % bps with hinSdef
      set tk := min (bps - inS) (out.length - readC) with htkdef
      have hinS : inS < bps := Nat.mod_lt _ hbpspos
      have htk1 : 1 ≤ tk := by
        rw [htkdef]
        omega
      have htk2 : inS + tk ≤ bps := by
        rw [htkdef]
        omega
      have htk3 : readC + tk ≤ out.length := by
        rw [htkdef]
        omega
      have hdm := Nat.div_add_mod (byteOff + readC) bps
      rw [← hskdef, ← hinSdef] at hdm
      have hsktouch : sTouches ((D - 1) * N) byteOff out.length sk := by
        rw [sTouches, hbps3]
        have he2 : (sk + 1) * bps = sk * bps + bps := by ring
        have hmc : sk * bps = bps * sk := Nat.mul_comm sk bps
        omega
      obtain ⟨l1, l2⟩ := load_single_failed D N dl v i sk hD hN hlen hi hmi hli
        hothers (hpcs sk hsktouch)
      rw [readLoop_step _ _ _ _ _ _ _ hlt]
      set v1 := loadStripe (layoutOps .raid3 D N) N v sk with hv1def
      set f := fun q => getChunkByte N ((layoutOps .raid3 D N).read v1.st) (inS + q)
        with hfdef
      obtain ⟨o1, o2⟩ := foldl_set_getD tk out readC f
      set out2 := (List.range tk).foldl (fun o q => o.set (readC + q) (f q)) out
        with hout2def
      have hfval : ∀ q, q < tk →
          f q = lbyte .raid3 D N v.disks (byteOff + (readC + q)) := by
        intro q hq
        rw [hfdef]
        show getChunkByte N ((layoutOps .raid3 D N).read v1.st) (inS + q) = _
        rw [l2, getChunkByte_dchunks .raid3 D N v.disks sk (inS + q) hN
          (by rw [← hdN, ← hbpsdef]; omega)]
        congr 1
        have hmc : sk * (dataCount .raid3 D * N) = bps * sk := by
          rw [← hdN, ← hbpsdef, Nat.mul_comm]
        omega
      have hv1disks : v1.disks = v.disks := l1
      have ho : out2.length = out.length := o1
      obtain ⟨r1, r2, r3⟩ := ih v1 out2 (readC + tk) hD hN
        (by rw [hv1disks]; exact hlen) hi (by rw [hv1disks]; exact hmi)
        (by rw [hv1disks]; exact hli) (by rw [hv1disks]; exact hothers)
        (by omega)
        (by
          intro s hs
          rw [hv1disks]
          refine hpcs s ?_
          rwa [ho] at hs)
      refine ⟨r1.trans ho, ?_, ?_⟩
      · intro p hp
        rw [r2 p (by omega), o2 p, if_neg (by omega)]
      · intro p hp1 hp2
        by_cases hpin : p < readC + tk
        · rw [r2 p hpin, o2 p, if_pos ⟨hp1, by omega, hp2⟩,
            hfval (p - readC) (by omega)]
          congr 1
          omega
        · rw [r3 p (by omega) (by rw [ho]; exact hp2), hv1disks]
    · rw [readLoop_stop _ _ _ _ _ _ _ hlt]
      exact ⟨rfl, fun p hp => rfl, fun p hp1 hp2 => absurd hp2 (by omega)⟩

/-- C2: on an all-healthy RAID3 volume with `D ≥ 3` disks, after
`write_bytes(O, P)` over a range within capacity and `fail_disk(i)` for
any single disk `i` (including the parity disk `D-1`), `read_bytes` over
the written range returns exactly the same bytes as the same read issued
on the volume before the failure: the missing disk's chunk is
transparently reconstructed from the surviving disks. -/
theorem c2_raid3_single_failure (D N dl : Nat) (v : VolumeM)
    (byteOff i : Nat) (payload out1 out2 : List Nat)
    (hD : 3 ≤ D) (hN : 1 ≤ N) (hlen : v.disks.length = D)
    (hh : healthyDisks v.disks dl)
    (hcap : byteOff + payload.length ≤ dataCount .raid3 D * dl)
    (hi : i < D)
    (hout1 : out1.length = payload.length)
    (hout2 : out2.length = payload.length) :
    (readBytes (layoutOps .raid3 D N) N
      (failDisk (writeBytes (layoutOps .raid3 D N) N v byteOff payload) i)
      byteOff out1).1 =
    (readBytes (layoutOps .raid3 D N) N
      (writeBytes (layoutOps .raid3 D N) N v byteOff payload) byteOff out2).1 := by
  have hwf : layoutWF .raid3 D := by
    show 2 ≤ D
    omega
  by_cases hP : payload.length = 0
  · have h1 : out1 = [] := List.eq_nil_of_length_eq_zero (by omega)
    have h2 : out2 = [] := List.eq_nil_of_length_eq_zero (by omega)
    subst h1
    subst h2
    rfl
  · obtain ⟨w1, w2, _⟩ := writeLoop_healthy .raid3 D N dl byteOff payload
      payload.length v 0 hwf hN hlen hh (by omega)
    set vw := writeLoop (layoutOps .raid3 D N) N payload byteOff payload.length v 0
      with hvwdef
    have hwpc : ∀ s, sTouches ((D - 1) * N) byteOff payload.length s →
        pcOk D N vw.disks dl s :=
      writeLoop_pcOk D N dl byteOff payload payload.length v 0 (by omega) hN hlen
        hh (by omega) (by omega) (fun s h0 _ => absurd h0 (by omega))
    have hfl : (failDisk vw i).disks.length = D := by
      show (vw.disks.set i _).length = D
      rw [List.length_set, w1]
    have hgfi := getDisk_failDisk vw i i (by omega)
    rw [if_pos rfl] at hgfi
    have hfmi : (getDisk (failDisk vw i).disks i).missing = true := by
      rw [hgfi]
    have hfli : (getDisk (failDisk vw i).disks i).len = dl := by
      rw [hgfi]
      show (getDisk vw.disks i).len = dl
      exact (healthy_getDisk vw.disks dl w2 i (by omega)).2.2
    have hfothers : ∀ j, j < D → j ≠ i →
        (getDisk (failDisk vw i).disks j).missing = false ∧
        (getDisk (failDisk vw i).disks j).needsRebuild = false ∧
        (getDisk (failDisk vw i).disks j).len = dl := by
      intro j hj hji
      have hgfj := getDisk_failDisk vw i j (by omega)
      rw [if_neg hji] at hgfj
      rw [hgfj]
      exact healthy_getDisk vw.disks dl w2 j (by omega)
    have hfpc : ∀ s, sTouches ((D - 1) * N) byteOff out1.length s →
        pcOk D N (failDisk vw i).disks dl s := by
      intro s hs
      refine pcOk_data_congr D N vw.disks (failDisk vw i).disks dl s (by omega)
        ?_ (hwpc s (by rwa [hout1] at hs))
      intro j hj
      exact (data_failDisk vw i j (by omega)).1
    obtain ⟨f1, _, f3⟩ := readLoop_failed D N dl byteOff i out1.length
      (failDisk vw i) out1 0 hD hN hfl hi hfmi hfli hfothers (by omega) hfpc
    obtain ⟨r1, _, r3, _, _, _⟩ := readLoop_healthy .raid3 D N dl byteOff
      out2.length vw out2 0 hwf hN w1 w2 (by omega)
    have hRB1 : (readBytes (layoutOps .raid3 D N) N (failDisk vw i)
        byteOff out1).1 =
        (readLoop (layoutOps .raid3 D N) N byteOff out1.length (failDisk vw i)
          out1 0).1 := rfl
    have hRB2 : (readBytes (layoutOps .raid3 D N) N vw byteOff out2).1 =
        (readLoop (layoutOps .raid3 D N) N byteOff out2.length vw out2 0).1 := rfl
    have hWB : writeBytes (layoutOps .raid3 D N) N v byteOff payload = vw := rfl
    rw [hWB, hRB1, hRB2]
    apply List.ext_getElem
    · rw [f1, r1, hout1, hout2]
    · intro p h1 h2
      have hp1 : p < out1.length := by
        rw [f1] at h1
        exact h1
      have hp2 : p < out2.length := by
        rw [r1] at h2
        exact h2
      rw [← getD_eq_getElem_of_lt _ 0 h1, ← getD_eq_getElem_of_lt _ 0 h2,
        f3 p (by omega) hp1, r3 p (by omega) hp2,
        lbyte_failDisk .raid3 D N vw i (by omega) (byteOff + p)]

theorem c2_raid3_single_failure_witness :
    ((3 : Nat) ≤ 3 ∧ (1 : Nat) ≤ 1 ∧
      (⟨[⟨1, fun _ => 0, false, false⟩, ⟨1, fun _ => 0, false, false⟩,
         ⟨1, fun _ => 0, false, false⟩], []⟩ : VolumeM).disks.length = 3 ∧
      healthyDisks (⟨[⟨1, fun _ => 0, false, false⟩, ⟨1, fun _ => 0, false, false⟩,
         ⟨1, fun _ => 0, false, false⟩], []⟩ : VolumeM).disks 1 ∧
      (0 : Nat) + ([1] : List Nat).length ≤ dataCount .raid3 3 * 1 ∧
      (0 : Nat) < 3 ∧
      ([0] : List Nat).length = ([1] : List Nat).length ∧
      ([0] : List Nat).length = ([1] : List Nat).length) ∧
    (readBytes (layoutOps .raid3 3 1) 1
      (failDisk (writeBytes (layoutOps .raid3 3 1) 1
        ⟨[⟨1, fun _ => 0, false, false⟩, ⟨1, fun _ => 0, false, false⟩,
          ⟨1, fun _ => 0, false, false⟩], []⟩ 0 [1]) 0) 0 [0]).1 =
    (readBytes (layoutOps .raid3 3 1) 1
      (writeBytes (layoutOps .raid3 3 1) 1
        ⟨[⟨1, fun _ => 0, false, false⟩, ⟨1, fun _ => 0, false, false⟩,
          ⟨1, fun _ => 0, false, false⟩], []⟩ 0 [1]) 0 [0]).1 :=
  ⟨⟨by decide, by decide, rfl,
    healthy_cons _ _ _ ⟨rfl, rfl, rfl⟩ (healthy_cons _ _ _ ⟨rfl, rfl, rfl⟩
      (healthy_cons _ _ _ ⟨rfl, rfl, rfl⟩ (healthy_nil _))),
    by decide, by decide, rfl, rfl⟩,
   c2_raid3_single_failure 3 1 1
     ⟨[⟨1, fun _ => 0, false, false⟩, ⟨1, fun _ => 0, false, false⟩,
       ⟨1, fun _ => 0, false, false⟩], []⟩ 0 0 [1] [0] [0]
     (by decide) (by decide) rfl
     (healthy_cons _ _ _ ⟨rfl, rfl, rfl⟩ (healthy_cons _ _ _ ⟨rfl, rfl, rfl⟩
       (healthy_cons _ _ _ ⟨rfl, rfl, rfl⟩ (healthy_nil _))))
     (by decide) (by decide) rfl rfl⟩

end RaidSim
